import Mathlib

set_option maxRecDepth 4000

/-
Verification model of the segmented write-ahead log (WAL).

The Go source is embedded shallowly:
- byte slices become `List Nat` with every element `< 256` where the Go type
  is `[]byte` or `string`;
- machine integers become `Nat`/`Int` with explicit `% 2 ^ w` where Go wraps;
- the filesystem becomes an association list from paths to contents, and the
  mutable `*WAL` receiver becomes explicit state passing;
- Go functions returning `error` become `Except String`;
- a Go runtime panic (index out of range on a slice) is modelled as `none`
  from an `Option`-valued decoder.
Pointer aliasing of `*Segment` values held in `wal.segments` is rendered by
returning the position of a segment inside `wal.segments` and mutating the
list at that position.
-/

namespace Wal

/-- A byte of a Go `[]byte` or `string`; kept as `Nat`, producers emit values `< 256`. -/
abbrev Byte := Nat

/-- Source constant `T_SIZE = 8`. -/
def T_SIZE : Nat := 8

/-- Source constant `C_SIZE = 4`. -/
def C_SIZE : Nat := 4

/-- Source constant `CRC_SIZE = T_SIZE + C_SIZE`. -/
def CRC_SIZE : Nat := T_SIZE + C_SIZE

/-- Source constant `TOMBSTONE_SIZE = CRC_SIZE + 1`. -/
def TOMBSTONE_SIZE : Nat := CRC_SIZE + 1

/-- Source constant `KEY_SIZE = TOMBSTONE_SIZE + T_SIZE`. -/
def KEY_SIZE : Nat := TOMBSTONE_SIZE + T_SIZE

/-- Source constant `VALUE_SIZE = KEY_SIZE + T_SIZE`. -/
def VALUE_SIZE : Nat := KEY_SIZE + T_SIZE

/-- Reflected CRC-32 (IEEE) polynomial constant used by `hash/crc32`. -/
def crcPoly : Nat := 0xEDB88320

/-- One bit step of the reflected CRC-32 computation (32-bit values). -/
def crcStep (c : Nat) : Nat := if c % 2 = 1 then (c / 2) ^^^ crcPoly else c / 2

/-- Iterate `crcStep`. -/
def crcSteps : Nat → Nat → Nat
  | 0, c => c
  | n + 1, c => crcSteps n (crcStep c)

/-- Fold one input byte into the CRC state. -/
def crcByte (c b : Nat) : Nat := crcSteps 8 (c ^^^ b)

/-- Modelled from the spec: `CRC32` in `model.go` wraps `crc32.ChecksumIEEE`
from the Go standard library, which is not part of this repository.  The spec
fixes it as "CRC-32 (IEEE polynomial) computed over the value bytes"; this is
the standard reflected table-less algorithm (init `0xFFFFFFFF`, reflected
polynomial `0xEDB88320`, final xor `0xFFFFFFFF`). -/
def CRC32 (s : List Byte) : Nat := (s.foldl crcByte 0xFFFFFFFF) ^^^ 0xFFFFFFFF

/-- `binary.LittleEndian.PutUint{32,64}`: `w` little-endian bytes of `n` (wraps at `2 ^ (8 * w)`). -/
def putLE : Nat → Nat → List Byte
  | 0, _ => []
  | w + 1, n => n % 256 :: putLE w (n / 256)

/-- `binary.LittleEndian.Uint{32,64}`: combine little-endian bytes. -/
def getLE : List Byte → Nat
  | [] => 0
  | b :: bs => b + 256 * getLE bs

/-- Go slice expression `data[a:b]`: `none` models the runtime panic when the
bounds are not `a ≤ b ≤ len(data)`. -/
def slice (data : List Byte) (a b : Nat) : Option (List Byte) :=
  if a ≤ b ∧ b ≤ data.length then some ((data.drop a).take (b - a)) else none

/-- `Entry` from `model.go`. `Key` is a Go string, kept as its bytes. -/
structure Entry where
  Crc : Nat
  Timestamp : Nat
  Deleted : Bool
  Key : List Byte
  Value : List Byte
  deriving DecidableEq, Repr

/-- `T` from `model.go`: one record of a `Set` batch. -/
structure T where
  Key : List Byte
  Value : List Byte
  Deleted : Bool
  deriving DecidableEq, Repr

/-- `Segment` from `model.go`. -/
structure Segment where
  path : String
  index : Int
  size : Int
  data : List Byte
  deriving DecidableEq, Repr

/-- `Process` from the source: encode one record.  `time.Now().Unix()` is
ambient state in Go, so the already-converted `uint64` timestamp is passed as
the parameter `ts`; everything else follows the source appends literally. -/
def Process (ts : Nat) (key : List Byte) (value : List Byte) (deleted : Bool) : List Byte :=
  let data : List Byte := []
  let data := data ++ putLE 4 (CRC32 value)
  let data := data ++ putLE 8 ts
  let data := data ++ (if deleted then [1] else [0])
  let data := data ++ putLE 8 key.length
  let data := data ++ putLE 8 value.length
  let data := data ++ key
  let data := data ++ value
  data

/-- One raw record image: CRC field, timestamp, tombstone byte, key-size,
value-size, key bytes, value bytes.  `Process ts k v d` equals
`rawRec (CRC32 v) ts (if d then 1 else 0) k v`. -/
def rawRec (c ts tomb : Nat) (k v : List Byte) : List Byte :=
  putLE 4 c ++ (putLE 8 ts ++ ([tomb] ++ (putLE 8 k.length ++ (putLE 8 v.length ++ (k ++ v)))))

/-- One iteration of the `convert` loop at cursor `i`: the header and payload
slices, the decoded `Entry`, and the new cursor, in source order.  `none`
models the Go runtime panic raised by an out-of-range slice or index. -/
def convertStep (data : List Byte) (i : Nat) : Option (Entry × Nat) := do
  let crcB ← slice data i (i + C_SIZE)
  let tsB ← slice data (i + C_SIZE) (i + CRC_SIZE)
  let tombstone ← data.get? (i + CRC_SIZE)
  let ksB ← slice data (i + TOMBSTONE_SIZE) (i + KEY_SIZE)
  let vsB ← slice data (i + KEY_SIZE) (i + VALUE_SIZE)
  let key_size := getLE ksB
  let value_size := getLE vsB
  let key_data ← slice data (i + VALUE_SIZE) (i + VALUE_SIZE + key_size)
  let val ← slice data (i + VALUE_SIZE + key_size) (i + VALUE_SIZE + key_size + value_size)
  pure (⟨getLE crcB, getLE tsB, tombstone == 1, key_data, val⟩,
    i + VALUE_SIZE + key_size + value_size)

/-- The loop of `convert`, with the cursor `i` into `data`.  The fuel
argument only bounds the recursion depth; `convert` supplies enough fuel that
it never runs out (each iteration advances the cursor by at least 29). -/
def convertLoopF : Nat → List Byte → Nat → Option (List Entry)
  | 0, data, i => if i < data.length then none else some []
  | f + 1, data, i =>
    if i < data.length then
      match convertStep data i with
      | none => none
      | some (e, i2) =>
        match convertLoopF f data i2 with
        | none => none
        | some rest => some (e :: rest)
    else some []

/-- `convert` from the source: decode a byte stream into entries. -/
def convert (data : List Byte) : Option (List Entry) :=
  if data.length = 0 then some [] else convertLoopF data.length data 0

/-! ### String helpers (the `part_001`-style utilities and `path/filepath` pieces) -/

/-- Is `p` a prefix of `s` (character-wise)? -/
def startsWithList : List Char → List Char → Bool
  | [], _ => true
  | _ :: _, [] => false
  | p :: ps, c :: cs => p == c && startsWithList ps cs

/-- `strings.HasPrefix`. -/
def strStarts (s pre : String) : Bool := startsWithList pre.toList s.toList

/-- `strings.HasSuffix`. -/
def strEnds (s suf : String) : Bool := startsWithList suf.toList.reverse s.toList.reverse

/-- `strings.TrimSuffix`, as used by `fileNameWithoutSuffix`. -/
def strTrimSuffix (s suf : String) : String :=
  if strEnds s suf then ⟨s.toList.take (s.toList.length - suf.toList.length)⟩ else s

/-- `fileNameWithoutSuffix` from the source. -/
def fileNameWithoutSuffix (fileName suffix : String) : String := strTrimSuffix fileName suffix

/-- The final path element (`info.Name()` of a regular file under a flat directory). -/
def lastComponent (p : String) : String :=
  ⟨(p.toList.reverse.takeWhile (fun c => c ≠ '/')).reverse⟩

/-- `filepath.Ext`: the suffix of the final element starting at its last dot, `""` if none. -/
def extOf (p : String) : String :=
  let b := (lastComponent p).toList
  if b.contains '.' then ⟨'.' :: (b.reverse.takeWhile (fun c => c ≠ '.')).reverse⟩ else ""

/-- `fileNameWithoutExtension` from the source. -/
def fileNameWithoutExtension (fileName : String) : String :=
  strTrimSuffix fileName (extOf fileName)

/-- Decimal digits of `n` (fuel-based, most significant first). -/
def natDigits : Nat → Nat → List Char
  | 0, _ => []
  | f + 1, n =>
    if n < 10 then [Char.ofNat (48 + n)]
    else natDigits f (n / 10) ++ [Char.ofNat (48 + n % 10)]

/-- Decimal rendering of a `Nat`. -/
def natToStr (n : Nat) : String := ⟨natDigits (n + 1) n⟩

/-- Decimal rendering of an `Int` (`fmt.Sprintf` `%d`, `strconv.Itoa`). -/
def intToStr : Int → String
  | Int.ofNat n => natToStr n
  | Int.negSucc n => "-" ++ natToStr (n + 1)

/-- Digits of a decimal literal, `none` on a non-digit. -/
def digitsToNat : List Char → Option Nat
  | [] => some 0
  | c :: cs =>
    if 48 ≤ c.toNat ∧ c.toNat ≤ 57 then
      (digitsToNat cs).map (fun r => r + (c.toNat - 48) * 10 ^ cs.length)
    else none

/-- `convertIndex` from the source: `strconv.ParseInt(s, 10, 64)`; an optional
sign followed by at least one digit, within the signed 64-bit range. -/
def convertIndex (s : String) : Except String Int :=
  let cs := s.toList
  let signed : Bool × List Char :=
    match cs with
    | '+' :: r => (false, r)
    | '-' :: r => (true, r)
    | r => (false, r)
  match signed with
  | (neg, ds) =>
    if ds.isEmpty then Except.error "parse error"
    else
      match digitsToNat ds with
      | none => Except.error "parse error"
      | some n =>
        if neg then
          if n ≤ 2 ^ 63 then Except.ok (-(n : Int)) else Except.error "value out of range"
        else
          if n < 2 ^ 63 then Except.ok (n : Int) else Except.error "value out of range"

/-- Character order by code point, for the lexical directory walk order. -/
def chListLt : List Char → List Char → Bool
  | [], [] => false
  | [], _ :: _ => true
  | _ :: _, [] => false
  | a :: as, b :: bs =>
    if a.toNat < b.toNat then true
    else if b.toNat < a.toNat then false
    else chListLt as bs

/-- Lexical (byte-wise) order on the ASCII paths used here. -/
def strLtB (a b : String) : Bool := chListLt a.toList b.toList

/-- Insert into a lexically sorted list. -/
def insertSorted (x : String) : List String → List String
  | [] => [x]
  | y :: ys => if strLtB x y then x :: y :: ys else y :: insertSorted x ys

/-- Sort paths lexically, as `filepath.Walk` enumerates a directory. -/
def sortStrings (l : List String) : List String := l.foldr insertSorted []

/-- `strings.Replace(s, pat, rep, -1)`: replace all non-overlapping occurrences
(leftmost first); fuel-based recursion on the character list. -/
def replList (pat rep : List Char) : Nat → List Char → List Char
  | 0, s => s
  | f + 1, s =>
    if startsWithList pat s ∧ ¬pat.isEmpty then rep ++ replList pat rep f (s.drop pat.length)
    else
      match s with
      | [] => []
      | c :: cs => c :: replList pat rep f cs

/-- `strings.Replace(s, pat, rep, -1)` on strings. -/
def strReplaceAll (s pat rep : String) : String :=
  ⟨replList pat.toList rep.toList (s.toList.length + 1) s.toList⟩

/-! ### Filesystem and WAL state -/

/-- The directory owned by the WAL: an association list from full paths to
file contents.  `filepath.Walk`'s enumeration is recovered by sorting the
paths lexically. -/
structure FS where
  files : List (String × List Byte)
  deriving DecidableEq, Repr

/-- Content of the file at `p`, if it exists. -/
def FS.find (fs : FS) (p : String) : Option (List Byte) :=
  (fs.files.find? (fun e => e.1 == p)).map (fun e => e.2)

/-- Create or overwrite the file at `p`. -/
def FS.write (fs : FS) (p : String) (bytes : List Byte) : FS :=
  ⟨(p, bytes) :: fs.files.filter (fun e => e.1 != p)⟩

/-- `os.Remove`: fails (`none`) when the file does not exist. -/
def FS.remove (fs : FS) (p : String) : Option FS :=
  match fs.find p with
  | none => none
  | some _ => some ⟨fs.files.filter (fun e => e.1 != p)⟩

/-- `os.Rename`: fails when the source does not exist, replaces the target. -/
def FS.rename (fs : FS) (old new : String) : Option FS :=
  match fs.find old with
  | none => none
  | some c =>
    match fs.remove old with
    | none => none
    | some fs1 => some (fs1.write new c)

/-- Modelled from the spec: `open` in `model.go` wraps `fmmap.NewFile(path,
os.O_RDWR|os.O_CREATE)` from the external `fmmap` library (§4.C of the spec):
it creates the file when absent and maps it read/write; `Get` returns the
mapped content.  Returns the updated directory and the file's bytes. -/
def fsOpen (fs : FS) (p : String) : FS × List Byte :=
  match fs.find p with
  | some c => (fs, c)
  | none => (fs.write p [], [])

/-- Modelled from the spec: the durable append of the tail writer
(`fmmap.Update`, §4.C): grows the file at `p` by `data`. -/
def fsAppend (fs : FS) (p : String) (data : List Byte) : FS :=
  fs.write p (((fs.find p).getD []) ++ data)

/-- The `WAL` struct from `model.go`.  The mutex is the serialization
discipline, not data; the retention `time.Duration` and the LRU capacity only
parameterize timing and eviction, which no modelled operation inspects, so
they are dropped.  `tail` is the mmap handle, identified by the path of the
open file.  The cache is keyed by the decimal rendering of the index, as in
`findInCache`/`cacheit`. -/
structure WALState where
  path : String
  segments : List Segment
  tail : Option String
  lowMark : Nat
  lastIndex : Int
  cache : List (String × List Byte)
  deriving DecidableEq, Repr

/-- Placeholder segment for positional access (Go would panic instead; all
modelled accesses are in bounds). -/
def dummySeg : Segment := { path := "", index := 0, size := 0, data := [] }

/-- `NewWAL` from `model.go` (lines 105-119): empty segments, `lastIndex = 0`,
no tail handle, empty cache.  Does not touch the filesystem. -/
def NewWAL (path : String) (lowMark : Nat) : WALState :=
  { path := path, segments := [], tail := none, lowMark := lowMark, lastIndex := 0, cache := [] }

/-- `Segment.Append` from `model.go`: extend the in-memory shadow and size. -/
def Segment.Append (s : Segment) (data : List Byte) (size : Int) : Segment :=
  { s with data := s.data ++ data, size := s.size + size }

/-- `WAL.AppendSegment` from `model.go`. -/
def AppendSegment (w : WALState) (segment : Segment) : WALState :=
  { w with segments := w.segments ++ [segment] }

/-- `WAL.removeIndex` from `model.go`: `append(segments[:i], segments[i+1:]...)`. -/
def removeIndex (w : WALState) (i : Nat) : WALState :=
  { w with segments := w.segments.take i ++ w.segments.drop (i + 1) }

/-- `WAL.TailPath` from `model.go`. -/
def TailPath (w : WALState) : Except String String :=
  match w.tail with
  | none => Except.error "no tail file"
  | some p => Except.ok p

/-- Replace the element at position `n` (Go mutates the pointee in place). -/
def updateNth : List α → Nat → (α → α) → List α
  | [], _, _ => []
  | x :: xs, 0, f => f x :: xs
  | x :: xs, n + 1, f => x :: updateNth xs n f

/-- `WAL.Update` from `model.go` (lines 132-139): one durable append through
the tail writer, then mirror the bytes into the segment at position `pos` of
`wal.segments` via `Segment.Append`.  The tail writer's failure (an `IOError`
in the spec) is injected through `uf`; on failure nothing is updated. -/
def Update (uf : Bool) (data : List Byte) (pos : Nat) (w : WALState) (fs : FS) :
    Except String (WALState × FS) :=
  match w.tail with
  | none => Except.error "nil tail handle"
  | some tp =>
    if uf then Except.error "update failed"
    else
      let segs := updateNth w.segments pos (fun s => Segment.Append s data (data.length : Int))
      Except.ok ({ w with segments := segs }, fsAppend fs tp data)

/-- The tail path built by `newSegment` from `FORMAT_NAME` (lines 672-677):
`sprintf("00000000000000000000%d", index)`, keep the last 20 bytes, join with
the root and the `_END` marker and the `wal` extension. -/
def tailName (root : String) (index : Int) : String :=
  let temp := "00000000000000000000" ++ intToStr index
  let temp := String.mk (temp.toList.drop (temp.toList.length - 20))
  let temp := root ++ "/" ++ temp
  let temp := temp ++ "_END"
  temp ++ "." ++ "wal"

/-- `newSegment` tail: build the new tail path from `FORMAT_NAME`, open it,
append the segment, set `lastIndex` (source lines 671-691). -/
def newSegmentCreate (w : WALState) (fs : FS) : WALState × FS × Nat :=
  let temp := tailName w.path (w.lastIndex + 1)
  let fs1 := (fsOpen fs temp).1
  let segment : Segment := { index := w.lastIndex + 1, path := temp, size := 0, data := [] }
  let w1 := AppendSegment { w with tail := some temp, lastIndex := w.lastIndex + 1 } segment
  (w1, fs1, w1.segments.length - 1)

/-- `newSegment` from the source (lines 657-692): close and rename the
previous tail (dropping every `_END` in its path), then create the next
segment with index `lastIndex + 1`.  Returns the new tail's position. -/
def newSegment (w : WALState) (fs : FS) : Except String (WALState × FS × Nat) :=
  match TailPath w with
  | Except.ok prevTail =>
    match fs.rename prevTail (strReplaceAll prevTail "_END" "") with
    | none => Except.error "rename failed"
    | some fs1 => Except.ok (newSegmentCreate w fs1)
  | Except.error _ => Except.ok (newSegmentCreate w fs)

/-- The loop of Go's `sort.Search` on `[i, j)`; fuel bounds the recursion and
`sortSearch` supplies `j - i`, which suffices since the interval halves. -/
def searchLoop (pred : Nat → Bool) : Nat → Nat → Nat → Nat
  | 0, i, _ => i
  | f + 1, i, j =>
    if i < j then
      let m := (i + j) / 2
      if pred m then searchLoop pred f i m else searchLoop pred f (m + 1) j
    else i

/-- `sort.Search(n, pred)`: least `k < n` with `pred k`, else `n` (for a
monotone predicate). -/
def sortSearch (n : Nat) (pred : Nat → Bool) : Nat := searchLoop pred n 0 n

/-- `getLastSegment` from the source (lines 617-625): binary search for
`lastIndex`; found means that position, otherwise create a new segment. -/
def getLastSegment (w : WALState) (fs : FS) : Except String (WALState × FS × Nat) :=
  let i := sortSearch w.segments.length
    (fun k => decide (w.lastIndex ≤ (w.segments.getD k dummySeg).index))
  if i < w.segments.length ∧ (w.segments.getD i dummySeg).index = w.lastIndex then
    Except.ok (w, fs, i)
  else newSegment w fs

/-- `findInCache` from `model.go`. -/
def findInCache (w : WALState) (index : Int) : Except String (List Byte) :=
  match w.cache.find? (fun e => e.1 == intToStr index) with
  | some e => Except.ok e.2
  | none => Except.error "Cache miss"

/-- Modelled from the spec: `cacheit` in `model.go` stores the bytes in the
external LRU cache (§4.E, an abstract bounded mapping); modelled as
replace-or-insert without eviction, which no claim observes. -/
def cacheit (w : WALState) (index : Int) (value : List Byte) : WALState :=
  { w with cache := (intToStr index, value) :: w.cache.filter (fun e => e.1 != intToStr index) }

/-- `Segment.getSegmentData` from the source (lines 609-615): reopen the
segment's file through the mmap wrapper and return its bytes. -/
def getSegmentData (fs : FS) (s : Segment) : FS × List Byte := fsOpen fs s.path

/-- `findSegment` from the source (lines 627-640): binary search for `index`;
on a hit, read and cache the bytes; on a miss, error. -/
def findSegment (w : WALState) (fs : FS) (index : Int) : Except String (WALState × FS × Nat) :=
  let i := sortSearch w.segments.length
    (fun k => decide (index ≤ (w.segments.getD k dummySeg).index))
  if i < w.segments.length ∧ (w.segments.getD i dummySeg).index = index then
    let r := getSegmentData fs (w.segments.getD i dummySeg)
    Except.ok (cacheit w index r.2, r.1, i)
  else Except.error "Segment do not exists"

/-- `Read` from the source (lines 511-533). -/
def Read (w : WALState) (fs : FS) (index : Int) :
    Except String (WALState × FS × List Byte) :=
  if w.lastIndex ≤ index then
    match getLastSegment w fs with
    | Except.error e => Except.error e
    | Except.ok (w1, fs1, pos) =>
      let r := getSegmentData fs1 (w1.segments.getD pos dummySeg)
      Except.ok (w1, r.1, r.2)
  else
    match findInCache w index with
    | Except.ok cached => Except.ok (w, fs, cached)
    | Except.error _ =>
      match findSegment w fs index with
      | Except.error e => Except.error e
      | Except.ok (w1, fs1, pos) =>
        let r := getSegmentData fs1 (w1.segments.getD pos dummySeg)
        Except.ok (w1, r.1, r.2)

/-- `ReadConverted` from the source (lines 535-541); the decoded payload is
`Option`-valued because `convert` can panic. -/
def ReadConverted (w : WALState) (fs : FS) (index : Int) :
    Except String (WALState × FS × Option (List Entry)) :=
  match Read w fs index with
  | Except.error e => Except.error e
  | Except.ok (w1, fs1, bytes) => Except.ok (w1, fs1, convert bytes)

/-- `Set` from the source (lines 543-564): roll over to a fresh tail, encode
the batch (the single-record case is special-cased as in the source),
concatenate, and issue one `Update`.  Each record is paired with the `uint64`
timestamp `Process` observes. -/
def Set (uf : Bool) (w : WALState) (fs : FS) (ts : List (Nat × T)) :
    Except String (WALState × FS) :=
  match newSegment w fs with
  | Except.error e => Except.error e
  | Except.ok (w1, fs1, pos) =>
    let data : List Byte :=
      match ts with
      | [p] => [] ++ Process p.1 p.2.Key p.2.Value p.2.Deleted
      | _ => (ts.map (fun p => Process p.1 p.2.Key p.2.Value p.2.Deleted)).flatten
    Update uf data pos w1 fs1

/-- The body of the `filepath.Walk` closure in `Open` (lines 569-602): skip
non-`.wal` files, parse the stem (stripping `_END` and recording the tail
index), stat the size, and append the segment. -/
def walkStep (fs : FS) (w : WALState) (p : String) : Except String WALState :=
  if extOf p ≠ ".wal" then Except.ok w
  else
    let name := fileNameWithoutExtension (lastComponent p)
    if strEnds name "_END" then
      match convertIndex (fileNameWithoutSuffix name "_END") with
      | Except.error e => Except.error e
      | Except.ok i =>
        AppendSegment { w with lastIndex := i } <$> Except.ok
          { path := p, index := i, size := (((fs.find p).getD []).length : Int), data := [] }
    else
      match convertIndex name with
      | Except.error e => Except.error e
      | Except.ok i =>
        Except.ok (AppendSegment w
          { path := p, index := i, size := (((fs.find p).getD []).length : Int), data := [] })

/-- The files `filepath.Walk` visits under the WAL's directory, in lexical
order (regular files only; the root directory itself is skipped by the
`info.IsDir()` test in the source). -/
def walkFiles (fs : FS) (root : String) : List String :=
  sortStrings ((fs.files.map (fun e => e.1)).filter (fun p => strStarts p (root ++ "/")))

/-- The discovery phase of `Open` (lines 566-607): run the walk closure over
every file, aborting on its error. -/
def openWalk (w : WALState) (fs : FS) : Except String WALState :=
  (walkFiles fs w.path).foldlM (walkStep fs) w

/-- `setupLastSegment` from the source (lines 642-655): locate (or create)
the tail, open it, and mirror its bytes into the segment's shadow. -/
def setupLastSegment (w : WALState) (fs : FS) : Except String (WALState × FS) :=
  match getLastSegment w fs with
  | Except.error e => Except.error e
  | Except.ok (w1, fs1, pos) =>
    let p := (w1.segments.getD pos dummySeg).path
    let r := fsOpen fs1 p
    let segs := updateNth w1.segments pos (fun s => { s with data := s.data ++ r.2 })
    Except.ok ({ w1 with tail := some p, segments := segs }, r.1)

/-- `Open` from the source: discovery walk, then `setupLastSegment`. -/
def Open (w : WALState) (fs : FS) : Except String (WALState × FS) :=
  match openWalk w fs with
  | Except.error e => Except.error e
  | Except.ok w1 => setupLastSegment w1 fs

/-- The retention loop body of `cleanLog` (lines 694-706): `i` runs from
`len(segments)-1` down to `lowMark`; each step removes the file at
`segments[i].path` and drops entry `i`; on a removal error it logs and
returns, aborting the sweep. -/
def cleanLoop : WALState → FS → Nat → WALState × FS
  | w, fs, 0 => (w, fs)
  | w, fs, n + 1 =>
    if w.lowMark ≤ n then
      match fs.remove ((w.segments.getD n dummySeg).path) with
      | none => (w, fs)
      | some fs1 => cleanLoop (removeIndex w n) fs1 n
    else (w, fs)

/-- `cleanLog` from the source. -/
def cleanLog (w : WALState) (fs : FS) : WALState × FS := cleanLoop w fs w.segments.length

/-! ### Concrete states used by the closed theorems and witnesses -/

/-- The empty directory. -/
def fsEmptyD : FS := ⟨[]⟩

/-- `Open` of a fresh WAL (`NewWAL`) over an empty directory at root `"d"`. -/
def freshOpen : Except String (WALState × FS) := Open (NewWAL "d" 2) fsEmptyD

/-- The WAL state `freshOpen` produces. -/
def w1c : WALState :=
  { path := "d",
    segments := [{ path := "d/00000000000000000001_END.wal", index := 1, size := 0, data := [] }],
    tail := some "d/00000000000000000001_END.wal", lowMark := 2, lastIndex := 1, cache := [] }

/-- The directory `freshOpen` produces. -/
def fs1c : FS := ⟨[("d/00000000000000000001_END.wal", [])]⟩

/-- A two-record batch with one-byte keys and values: `{"a","1",false}` at
timestamp 7 and `{"b","2",true}` at timestamp 8. -/
def batchC1 : List (Nat × T) := [(7, ⟨[97], [49], false⟩), (8, ⟨[98], [50], true⟩)]

/-- Fresh open over an empty directory followed by `Set` of `batchC1`. -/
def c1Run : Option (WALState × FS) :=
  freshOpen.toOption.bind (fun r => (Set false r.1 r.2 batchC1).toOption)

/-- A directory with two legally named but non-zero-padded segment files;
their lexical walk order (`10` before `5`) differs from index order. -/
def fsBadC7 : FS := ⟨[("d/10.wal", []), ("d/5_END.wal", [])]⟩

/-- A canonically named directory: one sealed segment `0` and the tail `1`. -/
def fsGoodC7 : FS :=
  ⟨[("d/00000000000000000000.wal", []), ("d/00000000000000000001_END.wal", [])]⟩

/-- Three sealed segments with `lowMark = 0`: every segment is eligible for
removal on a retention tick. -/
def wC9 : WALState :=
  { path := "d",
    segments := [{ path := "d/a.wal", index := 0, size := 0, data := [] },
                 { path := "d/b.wal", index := 1, size := 0, data := [] },
                 { path := "d/c.wal", index := 2, size := 0, data := [] }],
    tail := none, lowMark := 0, lastIndex := 2, cache := [] }

/-- The directory for `wC9` with the newest segment file missing (stuck). -/
def fsC9 : FS := ⟨[("d/a.wal", []), ("d/b.wal", [])]⟩

/-- The same three segments with `lowMark = 1` and every file present. -/
def wC8 : WALState := { wC9 with lowMark := 1 }

/-- The directory for `wC8`: all three files exist. -/
def fsC8 : FS := ⟨[("d/a.wal", []), ("d/b.wal", []), ("d/c.wal", [])]⟩

/-- The state after `Update false [9] 0 w1c fs1c`: the tail segment's shadow
and file both grew by the byte `9`. -/
def w2v : WALState :=
  { path := "d",
    segments := [{ path := "d/00000000000000000001_END.wal", index := 1, size := 1, data := [9] }],
    tail := some "d/00000000000000000001_END.wal", lowMark := 2, lastIndex := 1, cache := [] }

/-- The directory after `Update false [9] 0 w1c fs1c`. -/
def fs2v : FS := ⟨[("d/00000000000000000001_END.wal", [9])]⟩

/-- The bytes `Set` appends for `batchC1`: the two encodings concatenated. -/
def encC1 : List Byte := Process 7 [97] [49] false ++ Process 8 [98] [50] true

/-- The WAL state after `Set false w1c fs1c batchC1`. -/
def w2c : WALState :=
  { path := "d",
    segments := [{ path := "d/00000000000000000001_END.wal", index := 1, size := 0, data := [] },
                 { path := "d/00000000000000000002_END.wal", index := 2, size := 62,
                   data := encC1 }],
    tail := some "d/00000000000000000002_END.wal", lowMark := 2, lastIndex := 2, cache := [] }

/-- The directory after `Set false w1c fs1c batchC1`: the old tail was
renamed (sealed) and the new tail holds the 62 batch bytes. -/
def fs2c : FS :=
  ⟨[("d/00000000000000000002_END.wal", encC1), ("d/00000000000000000001.wal", [])]⟩

/-- The WAL state after a rollover (`newSegment`) from `w1c`: the new tail is
segment 2 (the sealed segment's recorded path is the stale `_END` one, as in
the source). -/
def wNs : WALState :=
  { path := "d",
    segments := [{ path := "d/00000000000000000001_END.wal", index := 1, size := 0, data := [] },
                 { path := "d/00000000000000000002_END.wal", index := 2, size := 0, data := [] }],
    tail := some "d/00000000000000000002_END.wal", lowMark := 2, lastIndex := 2, cache := [] }

/-- The directory after that rollover. -/
def fsNs : FS :=
  ⟨[("d/00000000000000000002_END.wal", []), ("d/00000000000000000001.wal", [])]⟩

/-- The state after the discovery walk of `Open` over `fsGoodC7`. -/
def wWalkC7 : WALState :=
  { path := "d",
    segments := [{ path := "d/00000000000000000000.wal", index := 0, size := 0, data := [] },
                 { path := "d/00000000000000000001_END.wal", index := 1, size := 0, data := [] }],
    tail := none, lowMark := 2, lastIndex := 1, cache := [] }

/-- The state after the full `Open` over `fsGoodC7`. -/
def wOpenC7 : WALState := { wWalkC7 with tail := some "d/00000000000000000001_END.wal" }

/-! ### Little-endian codec lemmas -/

theorem putLE_length (w n : Nat) : (putLE w n).length = w := by
  induction w generalizing n with
  | zero => rfl
  | succ w ih => simp [putLE, ih]

theorem getLE_putLE (w n : Nat) : getLE (putLE w n) = n % 256 ^ w := by
  induction w generalizing n with
  | zero => simp [putLE, getLE, Nat.mod_one]
  | succ w ih =>
    rw [pow_succ, Nat.mul_comm (256 ^ w) 256, Nat.mod_mul]
    simp [putLE, getLE, ih]

theorem putLE_lt (w n : Nat) : ∀ b ∈ putLE w n, b < 256 := by
  induction w generalizing n with
  | zero => simp [putLE]
  | succ w ih =>
    intro b hb
    simp only [putLE, List.mem_cons] at hb
    rcases hb with h | h
    · subst h; exact Nat.mod_lt _ (by norm_num)
    · exact ih (n / 256) b h

/-! ### CRC-32 stays below `2 ^ 32` on byte input -/

theorem crcStep_lt (c : Nat) (h : c < 2 ^ 32) : crcStep c < 2 ^ 32 := by
  unfold crcStep
  split
  · exact Nat.xor_lt_two_pow (by omega) (by norm_num [crcPoly])
  · omega

theorem crcSteps_lt (n c : Nat) (h : c < 2 ^ 32) : crcSteps n c < 2 ^ 32 := by
  induction n generalizing c with
  | zero => exact h
  | succ n ih => exact ih (crcStep c) (crcStep_lt c h)

theorem crcByte_lt (c b : Nat) (hc : c < 2 ^ 32) (hb : b < 256) : crcByte c b < 2 ^ 32 :=
  crcSteps_lt 8 _ (Nat.xor_lt_two_pow hc (by omega))

theorem crc_foldl_lt (s : List Byte) : ∀ c, c < 2 ^ 32 → (∀ b ∈ s, b < 256) →
    s.foldl crcByte c < 2 ^ 32 := by
  induction s with
  | nil => intro c hc _; exact hc
  | cons b bs ih =>
    intro c hc hs
    exact ih _ (crcByte_lt c b hc (hs b (by simp))) (fun x hx => hs x (by simp [hx]))

theorem CRC32_lt (s : List Byte) (h : ∀ b ∈ s, b < 256) : CRC32 s < 2 ^ 32 :=
  Nat.xor_lt_two_pow (crc_foldl_lt s _ (by norm_num) h) (by norm_num)

/-! ### Slice lemmas -/

theorem slice_none (data : List Byte) (a b : Nat) (h : data.length < b) :
    slice data a b = none := by
  unfold slice
  rw [if_neg]
  omega

theorem slice_all (data mid : List Byte) (a b : Nat) (ha : a = 0) (hb : b = mid.length)
    (hd : data = mid) : slice data a b = some mid := by
  subst ha hb hd
  unfold slice
  rw [if_pos ⟨Nat.zero_le _, Nat.le_refl _⟩]
  simp

theorem drop_append_len (pre rest : List Byte) (a : Nat) (ha : a = pre.length) :
    (pre ++ rest).drop a = rest := by
  subst ha; exact List.drop_left pre rest

theorem take_append_len (mid post : List Byte) (n : Nat) (hn : n = mid.length) :
    (mid ++ post).take n = mid := by
  subst hn; exact List.take_left mid post

theorem slice_app (pre mid post : List Byte) (a b : Nat) (ha : a = pre.length)
    (hb : b = pre.length + mid.length) :
    slice (pre ++ (mid ++ post)) a b = some mid := by
  unfold slice
  rw [if_pos]
  · rw [drop_append_len pre (mid ++ post) a ha, take_append_len]
    omega
  · constructor
    · omega
    · simp [List.length_append]; omega

theorem get_app (pre : List Byte) (x : Byte) (post : List Byte) (a : Nat)
    (ha : a = pre.length) : (pre ++ (x :: post)).get? a = some x := by
  subst ha
  rw [List.get?_append_right (Nat.le_refl _)]
  simp

theorem slice_shift (a b : List Byte) (x y : Nat) :
    slice (a ++ b) (a.length + x) (a.length + y) = slice b x y := by
  unfold slice
  have hd : (a ++ b).drop (a.length + x) = b.drop x := by
    rw [← List.drop_drop]
    congr 1
    exact List.drop_left a b
  by_cases hc : x ≤ y ∧ y ≤ b.length
  · have harith : a.length + y - (a.length + x) = y - x := by omega
    rw [if_pos, if_pos hc, hd, harith]
    · constructor
      · omega
      · simp [List.length_append]; omega
  · have hnc : ¬(a.length + x ≤ a.length + y ∧ a.length + y ≤ (a ++ b).length) := by
      intro hcon
      apply hc
      simp only [List.length_append] at hcon
      constructor <;> omega
    rw [if_neg hnc, if_neg hc]

theorem get_shift (a b : List Byte) (x : Nat) :
    (a ++ b).get? (a.length + x) = b.get? x := by
  rw [List.get?_append_right (by omega)]
  congr 1
  omega

theorem slice_app0 (mid post : List Byte) (b : Nat) (hb : b = mid.length) :
    slice (mid ++ post) 0 b = some mid := by
  unfold slice
  rw [if_pos]
  · rw [List.drop_zero, take_append_len mid post (b - 0) (by omega)]
  · constructor
    · omega
    · simp [List.length_append]; omega

theorem slice_some_bounds {data out : List Byte} {a b : Nat} (h : slice data a b = some out) :
    a ≤ b ∧ b ≤ data.length := by
  unfold slice at h
  split at h
  · assumption
  · cases h

/-! ### The decoder loop: fuel irrelevance, shift, and the per-record step -/

theorem convertStep_bounds (data : List Byte) (i : Nat) (e : Entry) (i2 : Nat)
    (h : convertStep data i = some (e, i2)) : i + 29 ≤ i2 ∧ i2 ≤ data.length := by
  unfold convertStep at h
  simp only [bind, Option.bind_eq_some, Option.pure_def, Option.some.injEq] at h
  obtain ⟨crcB, h1, tsB, h2, tomb, h3, ksB, h4, vsB, h5, key, h6, val, h7, hfin⟩ := h
  have hb7 := slice_some_bounds h7
  have : i2 = i + VALUE_SIZE + getLE ksB + getLE vsB := by
    have := congrArg Prod.snd hfin
    simpa using this.symm
  subst this
  simp only [VALUE_SIZE, KEY_SIZE, TOMBSTONE_SIZE, CRC_SIZE, T_SIZE, C_SIZE] at hb7 ⊢
  omega

theorem convertLoopF_fuel (f : Nat) : ∀ g data i, data.length ≤ 29 * f + i →
    data.length ≤ 29 * g + i → convertLoopF f data i = convertLoopF g data i := by
  induction f with
  | zero =>
    intro g data i hf hg
    have hni : ¬ i < data.length := by omega
    cases g with
    | zero => rfl
    | succ g => simp [convertLoopF, hni]
  | succ f ih =>
    intro g data i hf hg
    by_cases hlt : i < data.length
    · cases g with
      | zero => exact absurd hlt (by omega)
      | succ g =>
        simp only [convertLoopF, if_pos hlt]
        cases hs : convertStep data i with
        | none => rfl
        | some ei =>
          obtain ⟨e, i2⟩ := ei
          have hadv := convertStep_bounds data i e i2 hs
          simp only [ih g data i2 (by omega) (by omega)]
    · cases g with
      | zero => simp [convertLoopF, hlt]
      | succ g => simp [convertLoopF, hlt]

theorem convertStep_shift (a b : List Byte) (j : Nat) :
    convertStep (a ++ b) (a.length + j) =
      (convertStep b j).map (fun r => (r.1, a.length + r.2)) := by
  unfold convertStep
  simp only [Nat.add_assoc, slice_shift, get_shift]
  cases h1 : slice b j (j + C_SIZE) with
  | none => simp [h1]
  | some crcB =>
  cases h2 : slice b (j + C_SIZE) (j + CRC_SIZE) with
  | none => simp [h1, h2]
  | some tsB =>
  cases h3 : b.get? (j + CRC_SIZE) with
  | none => simp [h1, h2, h3]
  | some tomb =>
  cases h4 : slice b (j + TOMBSTONE_SIZE) (j + KEY_SIZE) with
  | none => simp [h1, h2, h3, h4]
  | some ksB =>
  cases h5 : slice b (j + KEY_SIZE) (j + VALUE_SIZE) with
  | none => simp [h1, h2, h3, h4, h5]
  | some vsB =>
  cases h6 : slice b (j + VALUE_SIZE) (j + (VALUE_SIZE + getLE ksB)) with
  | none => simp [h1, h2, h3, h4, h5, h6]
  | some key_data =>
  cases h7 : slice b (j + (VALUE_SIZE + getLE ksB)) (j + (VALUE_SIZE + (getLE ksB + getLE vsB)))
    with
  | none => simp [h1, h2, h3, h4, h5, h6, h7]
  | some val => simp [h1, h2, h3, h4, h5, h6, h7]

theorem rawRec_length (c ts tomb : Nat) (k v : List Byte) :
    (rawRec c ts tomb k v).length = 29 + (k.length + v.length) := by
  simp only [rawRec, List.length_append, putLE_length, List.length_cons, List.length_nil]
  omega

theorem convertStep_raw (c ts tomb : Nat) (k v rest : List Byte)
    (hk : k.length < 2 ^ 64) (hv : v.length < 2 ^ 64) :
    convertStep (rawRec c ts tomb k v ++ rest) 0 =
      some (⟨c % 2 ^ 32, ts % 2 ^ 64, tomb == 1, k, v⟩, 29 + (k.length + v.length)) := by
  have hks : getLE (putLE 8 k.length) = k.length := by
    rw [getLE_putLE, show (256 : Nat) ^ 8 = 2 ^ 64 by norm_num]
    exact Nat.mod_eq_of_lt hk
  have hvs : getLE (putLE 8 v.length) = v.length := by
    rw [getLE_putLE, show (256 : Nat) ^ 8 = 2 ^ 64 by norm_num]
    exact Nat.mod_eq_of_lt hv
  have hcrc : getLE (putLE 4 c) = c % 2 ^ 32 := by
    rw [getLE_putLE, show (256 : Nat) ^ 4 = 2 ^ 32 by norm_num]
  have hts : getLE (putLE 8 ts) = ts % 2 ^ 64 := by
    rw [getLE_putLE, show (256 : Nat) ^ 8 = 2 ^ 64 by norm_num]
  have hD : rawRec c ts tomb k v ++ rest =
      putLE 4 c ++ (putLE 8 ts ++ (tomb :: (putLE 8 k.length ++
        (putLE 8 v.length ++ (k ++ (v ++ rest)))))) := by
    simp [rawRec, List.append_assoc]
  rw [hD]
  have h1 : slice (putLE 4 c ++ (putLE 8 ts ++ (tomb :: (putLE 8 k.length ++
      (putLE 8 v.length ++ (k ++ (v ++ rest))))))) 0 (0 + C_SIZE) = some (putLE 4 c) := by
    exact slice_app0 _ _ _ (by simp only [VALUE_SIZE, KEY_SIZE, TOMBSTONE_SIZE, CRC_SIZE, C_SIZE, T_SIZE, putLE_length, List.length_append, List.length_cons, List.length_nil] <;> omega)
  have h2 : slice (putLE 4 c ++ (putLE 8 ts ++ (tomb :: (putLE 8 k.length ++
      (putLE 8 v.length ++ (k ++ (v ++ rest))))))) (0 + C_SIZE) (0 + CRC_SIZE) =
      some (putLE 8 ts) := by
    exact slice_app _ _ _ _ _ (by simp only [VALUE_SIZE, KEY_SIZE, TOMBSTONE_SIZE, CRC_SIZE, C_SIZE, T_SIZE, putLE_length, List.length_append, List.length_cons, List.length_nil] <;> omega)
      (by simp only [VALUE_SIZE, KEY_SIZE, TOMBSTONE_SIZE, CRC_SIZE, C_SIZE, T_SIZE, putLE_length, List.length_append, List.length_cons, List.length_nil] <;> omega)
  have h3 : (putLE 4 c ++ (putLE 8 ts ++ (tomb :: (putLE 8 k.length ++
      (putLE 8 v.length ++ (k ++ (v ++ rest))))))).get? (0 + CRC_SIZE) = some tomb := by
    rw [← List.append_assoc]
    exact get_app _ _ _ _ (by simp only [VALUE_SIZE, KEY_SIZE, TOMBSTONE_SIZE, CRC_SIZE, C_SIZE, T_SIZE, putLE_length, List.length_append, List.length_cons, List.length_nil] <;> omega)
  have h4 : slice (putLE 4 c ++ (putLE 8 ts ++ (tomb :: (putLE 8 k.length ++
      (putLE 8 v.length ++ (k ++ (v ++ rest))))))) (0 + TOMBSTONE_SIZE) (0 + KEY_SIZE) =
      some (putLE 8 k.length) := by
    rw [show putLE 4 c ++ (putLE 8 ts ++ (tomb :: (putLE 8 k.length ++
        (putLE 8 v.length ++ (k ++ (v ++ rest)))))) =
      ((putLE 4 c ++ putLE 8 ts) ++ [tomb]) ++ ((putLE 8 k.length) ++
        (putLE 8 v.length ++ (k ++ (v ++ rest)))) by simp [List.append_assoc]]
    exact slice_app _ _ _ _ _
      (by simp only [VALUE_SIZE, KEY_SIZE, TOMBSTONE_SIZE, CRC_SIZE, C_SIZE, T_SIZE, putLE_length, List.length_append, List.length_cons, List.length_nil] <;> omega)
      (by simp only [VALUE_SIZE, KEY_SIZE, TOMBSTONE_SIZE, CRC_SIZE, C_SIZE, T_SIZE, putLE_length, List.length_append, List.length_cons, List.length_nil] <;> omega)
  have h5 : slice (putLE 4 c ++ (putLE 8 ts ++ (tomb :: (putLE 8 k.length ++
      (putLE 8 v.length ++ (k ++ (v ++ rest))))))) (0 + KEY_SIZE) (0 + VALUE_SIZE) =
      some (putLE 8 v.length) := by
    rw [show putLE 4 c ++ (putLE 8 ts ++ (tomb :: (putLE 8 k.length ++
        (putLE 8 v.length ++ (k ++ (v ++ rest)))))) =
      (((putLE 4 c ++ putLE 8 ts) ++ [tomb]) ++ putLE 8 k.length) ++ ((putLE 8 v.length) ++
        (k ++ (v ++ rest))) by simp [List.append_assoc]]
    exact slice_app _ _ _ _ _
      (by simp only [VALUE_SIZE, KEY_SIZE, TOMBSTONE_SIZE, CRC_SIZE, C_SIZE, T_SIZE, putLE_length, List.length_append, List.length_cons, List.length_nil] <;> omega)
      (by simp only [VALUE_SIZE, KEY_SIZE, TOMBSTONE_SIZE, CRC_SIZE, C_SIZE, T_SIZE, putLE_length, List.length_append, List.length_cons, List.length_nil] <;> omega)
  have h6 : slice (putLE 4 c ++ (putLE 8 ts ++ (tomb :: (putLE 8 k.length ++
      (putLE 8 v.length ++ (k ++ (v ++ rest))))))) (0 + VALUE_SIZE)
      (0 + VALUE_SIZE + k.length) = some k := by
    rw [show putLE 4 c ++ (putLE 8 ts ++ (tomb :: (putLE 8 k.length ++
        (putLE 8 v.length ++ (k ++ (v ++ rest)))))) =
      ((((putLE 4 c ++ putLE 8 ts) ++ [tomb]) ++ putLE 8 k.length) ++ putLE 8 v.length) ++
        (k ++ (v ++ rest)) by simp [List.append_assoc]]
    exact slice_app _ _ _ _ _
      (by simp only [VALUE_SIZE, KEY_SIZE, TOMBSTONE_SIZE, CRC_SIZE, C_SIZE, T_SIZE, putLE_length, List.length_append, List.length_cons, List.length_nil] <;> omega)
      (by simp only [VALUE_SIZE, KEY_SIZE, TOMBSTONE_SIZE, CRC_SIZE, C_SIZE, T_SIZE, putLE_length, List.length_append, List.length_cons, List.length_nil] <;> omega)
  have h7 : slice (putLE 4 c ++ (putLE 8 ts ++ (tomb :: (putLE 8 k.length ++
      (putLE 8 v.length ++ (k ++ (v ++ rest))))))) (0 + VALUE_SIZE + k.length)
      (0 + VALUE_SIZE + k.length + v.length) = some v := by
    rw [show putLE 4 c ++ (putLE 8 ts ++ (tomb :: (putLE 8 k.length ++
        (putLE 8 v.length ++ (k ++ (v ++ rest)))))) =
      (((((putLE 4 c ++ putLE 8 ts) ++ [tomb]) ++ putLE 8 k.length) ++ putLE 8 v.length) ++ k)
        ++ (v ++ rest) by simp [List.append_assoc]]
    exact slice_app _ _ _ _ _
      (by simp only [VALUE_SIZE, KEY_SIZE, TOMBSTONE_SIZE, CRC_SIZE, C_SIZE, T_SIZE, putLE_length, List.length_append, List.length_cons, List.length_nil] <;> omega)
      (by simp only [VALUE_SIZE, KEY_SIZE, TOMBSTONE_SIZE, CRC_SIZE, C_SIZE, T_SIZE, putLE_length, List.length_append, List.length_cons, List.length_nil] <;> omega)
  unfold convertStep
  simp only [h1, Option.bind_eq_bind, Option.some_bind]
  simp only [h2, Option.bind_eq_bind, Option.some_bind]
  simp only [h3, Option.bind_eq_bind, Option.some_bind]
  simp only [h4, Option.bind_eq_bind, Option.some_bind]
  simp only [hks]
  simp only [h5, Option.bind_eq_bind, Option.some_bind]
  simp only [hvs]
  simp only [h6, Option.bind_eq_bind, Option.some_bind]
  simp only [h7, Option.bind_eq_bind, Option.some_bind]
  simp only [Option.pure_def, Option.some.injEq, Prod.mk.injEq, hcrc, hts]
  refine ⟨trivial, ?_⟩
  simp only [VALUE_SIZE, KEY_SIZE, TOMBSTONE_SIZE, CRC_SIZE, C_SIZE, T_SIZE]
  omega

theorem convertLoopF_nil (f : Nat) : convertLoopF f [] 0 = some [] := by
  cases f <;> simp [convertLoopF]

theorem convertLoopF_succ_none (f : Nat) (data : List Byte) (i : Nat) (h : i < data.length)
    (hs : convertStep data i = none) : convertLoopF (f + 1) data i = none := by
  simp [convertLoopF, h, hs]

theorem convertLoopF_succ_some (f : Nat) (data : List Byte) (i : Nat) (h : i < data.length)
    (e : Entry) (i2 : Nat) (hs : convertStep data i = some (e, i2)) :
    convertLoopF (f + 1) data i = (convertLoopF f data i2).map (fun rest => e :: rest) := by
  cases hc : convertLoopF f data i2 <;> simp [convertLoopF, h, hs, hc]

theorem convertLoopF_shift (f : Nat) : ∀ (a b : List Byte) (j : Nat),
    convertLoopF f (a ++ b) (a.length + j) = convertLoopF f b j := by
  induction f with
  | zero =>
    intro a b j
    by_cases h : j < b.length <;> simp [convertLoopF, List.length_append, h] <;> omega
  | succ f ih =>
    intro a b j
    by_cases h : j < b.length
    · have hD : a.length + j < (a ++ b).length := by simp [List.length_append]; omega
      cases hs : convertStep b j with
      | none =>
        rw [convertLoopF_succ_none f b j h hs, convertLoopF_succ_none f (a ++ b) _ hD
          (by rw [convertStep_shift, hs]; rfl)]
      | some ei =>
        obtain ⟨e, i2⟩ := ei
        rw [convertLoopF_succ_some f b j h e i2 hs, convertLoopF_succ_some f (a ++ b) _ hD e
          (a.length + i2) (by rw [convertStep_shift, hs]; rfl)]
        rw [ih a b i2]
    · have hD : ¬ a.length + j < (a ++ b).length := by simp [List.length_append]; omega
      simp [convertLoopF, hD, h]

theorem convert_cons (c ts tomb : Nat) (k v rest : List Byte) (hk : k.length < 2 ^ 64)
    (hv : v.length < 2 ^ 64) :
    convert (rawRec c ts tomb k v ++ rest) =
      (convert rest).map
        (fun es => (⟨c % 2 ^ 32, ts % 2 ^ 64, tomb == 1, k, v⟩ : Entry) :: es) := by
  have hrl := rawRec_length c ts tomb k v
  have hlen : (rawRec c ts tomb k v ++ rest).length =
      29 + (k.length + v.length) + rest.length := by
    simp [List.length_append, hrl]
  unfold convert
  rw [if_neg (by omega)]
  rw [show (rawRec c ts tomb k v ++ rest).length =
    ((rawRec c ts tomb k v ++ rest).length - 1) + 1 by omega]
  rw [convertLoopF_succ_some _ _ _ (by omega) _ _ (convertStep_raw c ts tomb k v rest hk hv)]
  rw [show 29 + (k.length + v.length) = (rawRec c ts tomb k v).length + 0 by omega]
  rw [convertLoopF_shift]
  by_cases hr : rest.length = 0
  · have hnil : rest = [] := List.length_eq_zero.mp hr
    subst hnil
    simp [convertLoopF_nil, convert]
  · rw [convertLoopF_fuel ((rawRec c ts tomb k v ++ rest).length - 1) rest.length rest 0
      (by omega) (by omega)]
    rw [if_neg hr]

theorem Process_eq_rawRec (ts : Nat) (k v : List Byte) (d : Bool) :
    Process ts k v d = rawRec (CRC32 v) ts (if d then 1 else 0) k v := by
  cases d <;> simp [Process, rawRec, List.append_assoc]

theorem beq_ite_one (d : Bool) : ((if d then (1 : Nat) else 0) == 1) = d := by
  cases d <;> rfl

theorem convert_join (rs : List (Nat × T)) (hk : ∀ p ∈ rs, p.2.Key.length < 2 ^ 64)
    (hv : ∀ p ∈ rs, p.2.Value.length < 2 ^ 64) :
    convert ((rs.map (fun p => Process p.1 p.2.Key p.2.Value p.2.Deleted)).flatten) =
      some (rs.map (fun p =>
        (⟨CRC32 p.2.Value % 2 ^ 32, p.1 % 2 ^ 64, p.2.Deleted, p.2.Key, p.2.Value⟩ : Entry))) := by
  induction rs with
  | nil => simp [convert]
  | cons p rs ih =>
    simp only [List.map_cons, List.flatten_cons]
    rw [Process_eq_rawRec]
    rw [convert_cons _ _ _ _ _ _ (hk p (by simp)) (hv p (by simp))]
    rw [ih (fun q hq => hk q (by simp [hq])) (fun q hq => hv q (by simp [hq]))]
    simp [beq_ite_one]

theorem searchLoop_spec (pred : Nat → Bool) (n : Nat)
    (mono : ∀ a b, a ≤ b → b < n → pred a = true → pred b = true) :
    ∀ f i j, i ≤ j → j ≤ n → j - i ≤ f →
      i ≤ searchLoop pred f i j ∧ searchLoop pred f i j ≤ j ∧
      (∀ k, i ≤ k → k < searchLoop pred f i j → pred k = false) ∧
      (searchLoop pred f i j < j → pred (searchLoop pred f i j) = true) := by
  intro f
  induction f with
  | zero =>
    intro i j hij hjn hf
    have hnlt : ¬ i < j := by omega
    simp only [searchLoop]
    exact ⟨Nat.le_refl i, hij, fun k h1 h2 => by omega, fun h => by omega⟩
  | succ f ih =>
    intro i j hij hjn hf
    by_cases hlt : i < j
    · simp only [searchLoop, if_pos hlt]
      by_cases hp : pred ((i + j) / 2)
      · rw [if_pos hp]
        obtain ⟨r1, r2, r3, r4⟩ := ih i ((i + j) / 2) (by omega) (by omega) (by omega)
        refine ⟨r1, by omega, r3, ?_⟩
        intro hlt2
        by_cases hr : searchLoop pred f i ((i + j) / 2) < (i + j) / 2
        · exact r4 hr
        · have heq : searchLoop pred f i ((i + j) / 2) = (i + j) / 2 := by omega
          rw [heq]; exact hp
      · rw [if_neg hp]
        obtain ⟨r1, r2, r3, r4⟩ := ih ((i + j) / 2 + 1) j (by omega) hjn (by omega)
        refine ⟨by omega, r2, ?_, r4⟩
        intro k hk1 hk2
        by_cases hkm : k ≤ (i + j) / 2
        · cases hpk : pred k with
          | false => rfl
          | true =>
            exact absurd (mono k ((i + j) / 2) hkm (by omega) hpk) (by simp [hp])
        · exact r3 k (by omega) hk2
    · simp only [searchLoop, if_neg hlt]
      exact ⟨Nat.le_refl i, hij, fun k h1 h2 => by omega, fun h => by omega⟩

theorem getD_lt {l : List Segment} {k : Nat} (h : k < l.length) :
    l.getD k dummySeg = l.get ⟨k, h⟩ := by
  rw [List.getD_eq_get? l k dummySeg, List.get?_eq_get h]
  rfl

theorem pairwise_getD {segs : List Segment}
    (hs : segs.Pairwise (fun s t => s.index < t.index))
    {a b : Nat} (hab : a < b) (hb : b < segs.length) :
    (segs.getD a dummySeg).index < (segs.getD b dummySeg).index := by
  have ha : a < segs.length := by omega
  rw [getD_lt ha, getD_lt hb]
  exact (List.pairwise_iff_get.mp hs) ⟨a, ha⟩ ⟨b, hb⟩ hab

theorem sortSearch_found (segs : List Segment) (target : Int)
    (hsorted : segs.Pairwise (fun s t => s.index < t.index))
    (p : Nat) (hp : p < segs.length) (hidx : (segs.getD p dummySeg).index = target) :
    sortSearch segs.length (fun k => decide (target ≤ (segs.getD k dummySeg).index)) = p := by
  have hmono : ∀ a b, a ≤ b → b < segs.length →
      (fun k => decide (target ≤ (segs.getD k dummySeg).index)) a = true →
      (fun k => decide (target ≤ (segs.getD k dummySeg).index)) b = true := by
    intro a b hab hbn ha
    simp only [decide_eq_true_eq] at ha ⊢
    rcases Nat.lt_or_ge a b with h | h
    · have := pairwise_getD hsorted h hbn
      omega
    · have heq : a = b := by omega
      subst heq
      exact ha
  obtain ⟨r1, r2, r3, r4⟩ := searchLoop_spec _ segs.length hmono segs.length 0 segs.length
    (by omega) (by omega) (by omega)
  set r := searchLoop (fun k => decide (target ≤ (segs.getD k dummySeg).index))
    segs.length 0 segs.length with hr
  show r = p
  have hpp : decide (target ≤ (segs.getD p dummySeg).index) = true := by
    rw [hidx]
    simp
  have hrlep : r ≤ p := by
    by_contra hgt
    have := r3 p (by omega) (by omega)
    rw [hpp] at this
    cases this
  rcases Nat.lt_or_ge r p with h | h
  · exfalso
    have hrn : r < segs.length := by omega
    have hpredr := r4 hrn
    simp only [decide_eq_true_eq] at hpredr
    have := pairwise_getD hsorted h hp
    omega
  · omega


/-! ### Filesystem and list helper lemmas -/

theorem find_write_self (fs : FS) (p : String) (bytes : List Byte) :
    (fs.write p bytes).find p = some bytes := by
  simp [FS.find, FS.write, List.find?]

theorem fsAppend_find (fs : FS) (p : String) (data : List Byte) :
    (fsAppend fs p data).find p = some (((fs.find p).getD []) ++ data) := by
  simp [fsAppend, find_write_self]

theorem fsOpen_existing {fs : FS} {p : String} {c : List Byte} (h : fs.find p = some c) :
    fsOpen fs p = (fs, c) := by
  simp [fsOpen, h]

theorem find?_filter_ne (l : List (String × List Byte)) (p q : String) (hne : q ≠ p) :
    (l.filter (fun e => e.1 != p)).find? (fun e => e.1 == q) = l.find? (fun e => e.1 == q) := by
  induction l with
  | nil => rfl
  | cons e l ih =>
    by_cases he : e.1 = p
    · have h1 : (e.1 != p) = false := by simp [he]
      have h2 : (e.1 == q) = false := by simp [he]; exact fun h => hne h.symm
      simp [List.filter, List.find?, h1, h2, ih]
    · have h1 : (e.1 != p) = true := by simp [he]
      by_cases hq : e.1 = q
      · have h2 : (e.1 == q) = true := by simp [hq]
        simp [List.filter, List.find?, h1, h2]
      · have h2 : (e.1 == q) = false := by simp [hq]
        simp [List.filter, List.find?, h1, h2, ih]

theorem remove_find_other {fs fs2 : FS} {p q : String} (h : fs.remove p = some fs2)
    (hne : q ≠ p) : fs2.find q = fs.find q := by
  unfold FS.remove at h
  cases hf : fs.find p with
  | none => rw [hf] at h; cases h
  | some c =>
    rw [hf] at h
    cases h
    simp only [FS.find]
    rw [find?_filter_ne fs.files p q hne]

theorem remove_some {fs : FS} {p : String} {c : List Byte} (h : fs.find p = some c) :
    ∃ fs2, fs.remove p = some fs2 := by
  unfold FS.remove
  rw [h]
  exact ⟨_, rfl⟩

theorem remove_none {fs : FS} {p : String} (h : fs.find p = none) :
    fs.remove p = none := by
  unfold FS.remove
  rw [h]

theorem updateNth_length {α} (l : List α) (n : Nat) (f : α → α) :
    (updateNth l n f).length = l.length := by
  induction l generalizing n with
  | nil => rfl
  | cons x xs ih => cases n <;> simp [updateNth, ih]

theorem updateNth_map {α β} (l : List α) (n : Nat) (f : α → α) (g : α → β)
    (h : ∀ x, g (f x) = g x) : (updateNth l n f).map g = l.map g := by
  induction l generalizing n with
  | nil => rfl
  | cons x xs ih => cases n <;> simp [updateNth, ih, h]

theorem updateNth_append_last {α} (a : List α) (x : α) (f : α → α) :
    updateNth (a ++ [x]) a.length f = a ++ [f x] := by
  induction a with
  | nil => rfl
  | cons y ys ih => simp [updateNth, ih]

theorem removeIndex_last (w : WALState) (n : Nat) (h : w.segments.length = n + 1) :
    (removeIndex w n).segments = w.segments.take n := by
  simp only [removeIndex]
  rw [List.drop_eq_nil_of_le (by omega), List.append_nil]

/-! ### `newSegment`, `getLastSegment`, `Update` characterizations -/

theorem newSegmentCreate_spec (w : WALState) (fs : FS) :
    (newSegmentCreate w fs).1.segments = w.segments ++
      [{ path := tailName w.path (w.lastIndex + 1), index := w.lastIndex + 1,
         size := 0, data := [] }] ∧
    (newSegmentCreate w fs).1.lastIndex = w.lastIndex + 1 ∧
    (newSegmentCreate w fs).1.tail = some (tailName w.path (w.lastIndex + 1)) ∧
    (newSegmentCreate w fs).1.path = w.path ∧
    (newSegmentCreate w fs).1.lowMark = w.lowMark ∧
    (newSegmentCreate w fs).1.cache = w.cache ∧
    (newSegmentCreate w fs).2.2 = w.segments.length := by
  refine ⟨?_, ?_, ?_, ?_, ?_, ?_, ?_⟩ <;> simp [newSegmentCreate, AppendSegment]

theorem newSegment_ok {w : WALState} {fs : FS} {w1 : WALState} {fs1 : FS} {pos : Nat}
    (h : newSegment w fs = Except.ok (w1, fs1, pos)) :
    w1.segments = w.segments ++
      [{ path := tailName w.path (w.lastIndex + 1), index := w.lastIndex + 1,
         size := 0, data := [] }] ∧
    w1.lastIndex = w.lastIndex + 1 ∧ w1.tail = some (tailName w.path (w.lastIndex + 1)) ∧
    w1.path = w.path ∧ w1.lowMark = w.lowMark ∧ w1.cache = w.cache ∧
    pos = w.segments.length := by
  unfold newSegment at h
  split at h
  · split at h
    · cases h
    · rename_i fs2 hr
      injection h with h
      have hw1 : (newSegmentCreate w fs2).1 = w1 := by rw [h]
      have hpos : (newSegmentCreate w fs2).2.2 = pos := by rw [h]
      rw [← hw1, ← hpos]
      exact newSegmentCreate_spec w fs2
  · injection h with h
    have hw1 : (newSegmentCreate w fs).1 = w1 := by rw [h]
    have hpos : (newSegmentCreate w fs).2.2 = pos := by rw [h]
    rw [← hw1, ← hpos]
    exact newSegmentCreate_spec w fs

theorem getLastSegment_found {w : WALState} (fs : FS) {p : Nat} (hp : p < w.segments.length)
    (hsorted : w.segments.Pairwise (fun s t => s.index < t.index))
    (hidx : (w.segments.getD p dummySeg).index = w.lastIndex) :
    getLastSegment w fs = Except.ok (w, fs, p) := by
  unfold getLastSegment
  rw [sortSearch_found w.segments w.lastIndex hsorted p hp hidx]
  rw [if_pos ⟨hp, hidx⟩]


theorem getD_take {α} (l : List α) (n j : Nat) (d : α) (h : j < n) :
    (l.take n).getD j d = l.getD j d := by
  simp [List.getD_eq_getElem?_getD, List.getElem?_take_of_lt h]

theorem nodup_paths_getD {segs : List Segment} (h : (segs.map (fun s => s.path)).Nodup) :
    ∀ i j, i < j → j < segs.length →
      (segs.getD i dummySeg).path ≠ (segs.getD j dummySeg).path := by
  intro i j hij hj
  have hi : i < segs.length := by omega
  have hmap := List.pairwise_iff_get.mp h ⟨i, by simp [List.length_map]; omega⟩
    ⟨j, by simp [List.length_map]; omega⟩ hij
  rw [List.get_map, List.get_map] at hmap
  rw [getD_lt hi, getD_lt hj]
  exact hmap

theorem cleanLoop_take : ∀ (f : Nat) (w : WALState) (fs : FS), w.segments.length = f →
    (∀ i j, i < j → j < w.segments.length →
      (w.segments.getD i dummySeg).path ≠ (w.segments.getD j dummySeg).path) →
    (∀ i, w.lowMark ≤ i → i < w.segments.length →
      fs.find ((w.segments.getD i dummySeg).path) ≠ none) →
    (cleanLoop w fs f).1.segments = w.segments.take w.lowMark := by
  intro f
  induction f with
  | zero =>
    intro w fs hlen _ _
    have hnil : w.segments = [] := List.length_eq_zero.mp hlen
    simp [cleanLoop, hnil]
  | succ n ih =>
    intro w fs hlen hdist hpres
    by_cases hlm : w.lowMark ≤ n
    · have hpn := hpres n hlm (by omega)
      obtain ⟨c, hc⟩ : ∃ c, fs.find ((w.segments.getD n dummySeg).path) = some c := by
        cases hf : fs.find ((w.segments.getD n dummySeg).path) with
        | none => exact absurd hf hpn
        | some c => exact ⟨c, rfl⟩
      obtain ⟨fs2, hfs2⟩ := remove_some hc
      have hseg2 : (removeIndex w n).segments = w.segments.take n := removeIndex_last w n hlen
      have hlen2 : (removeIndex w n).segments.length = n := by
        rw [hseg2, List.length_take]; omega
      simp only [cleanLoop, if_pos hlm, hfs2]
      rw [ih (removeIndex w n) fs2 hlen2 ?_ ?_]
      · rw [hseg2, List.take_take]
        have hlm2 : (removeIndex w n).lowMark = w.lowMark := rfl
        rw [hlm2]
        congr 1
        omega
      · intro i j hij hj
        rw [hlen2] at hj
        rw [hseg2, getD_take _ _ _ _ (by omega), getD_take _ _ _ _ (by omega)]
        exact hdist i j hij (by omega)
      · intro i hi hilt
        rw [hlen2] at hilt
        rw [hseg2, getD_take _ _ _ _ (by omega)]
        rw [remove_find_other hfs2 (hdist i n (by omega) (by omega))]
        exact hpres i hi (by omega)
    · simp only [cleanLoop, if_neg hlm]
      rw [List.take_of_length_le (by omega)]

theorem cleanLoop_prefix : ∀ (f : Nat) (w : WALState) (fs : FS), w.segments.length = f →
    ∃ k, (cleanLoop w fs f).1.segments = w.segments.take k := by
  intro f
  induction f with
  | zero =>
    intro w fs hlen
    have hnil : w.segments = [] := List.length_eq_zero.mp hlen
    exact ⟨0, by simp [cleanLoop, hnil]⟩
  | succ n ih =>
    intro w fs hlen
    by_cases hlm : w.lowMark ≤ n
    · cases hr : fs.remove ((w.segments.getD n dummySeg).path) with
      | none =>
        refine ⟨n + 1, ?_⟩
        simp only [cleanLoop, if_pos hlm, hr]
        rw [List.take_of_length_le (by omega)]
      | some fs2 =>
        have hseg2 : (removeIndex w n).segments = w.segments.take n := removeIndex_last w n hlen
        have hlen2 : (removeIndex w n).segments.length = n := by
          rw [hseg2, List.length_take]; omega
        obtain ⟨k, hk⟩ := ih (removeIndex w n) fs2 hlen2
        refine ⟨min k n, ?_⟩
        simp only [cleanLoop, if_pos hlm, hr]
        rw [hk, hseg2, List.take_take]
    · refine ⟨n + 1, ?_⟩
      simp only [cleanLoop, if_neg hlm]
      rw [List.take_of_length_le (by omega)]

theorem cleanLoop_until : ∀ (f : Nat) (w : WALState) (fs : FS) (j : Nat),
    w.segments.length = f → w.lowMark ≤ j → j < f →
    (∀ a b, a < b → b < w.segments.length →
      (w.segments.getD a dummySeg).path ≠ (w.segments.getD b dummySeg).path) →
    (∀ i, j < i → i < w.segments.length →
      fs.find ((w.segments.getD i dummySeg).path) ≠ none) →
    fs.find ((w.segments.getD j dummySeg).path) = none →
    (cleanLoop w fs f).1.segments = w.segments.take (j + 1) := by
  intro f
  induction f with
  | zero => intro w fs j _ _ hj _ _ _; omega
  | succ n ih =>
    intro w fs j hlen hlmj hjn hdist hpres habs
    have hlm : w.lowMark ≤ n := by omega
    by_cases hjeq : j = n
    · subst hjeq
      simp only [cleanLoop, if_pos hlm, remove_none habs]
      rw [List.take_of_length_le (by omega)]
    · have hjlt : j < n := by omega
      have hpn := hpres n (by omega) (by omega)
      obtain ⟨c, hc⟩ : ∃ c, fs.find ((w.segments.getD n dummySeg).path) = some c := by
        cases hf : fs.find ((w.segments.getD n dummySeg).path) with
        | none => exact absurd hf hpn
        | some c => exact ⟨c, rfl⟩
      obtain ⟨fs2, hfs2⟩ := remove_some hc
      have hseg2 : (removeIndex w n).segments = w.segments.take n := removeIndex_last w n hlen
      have hlen2 : (removeIndex w n).segments.length = n := by
        rw [hseg2, List.length_take]; omega
      simp only [cleanLoop, if_pos hlm, hfs2]
      rw [ih (removeIndex w n) fs2 j hlen2 hlmj hjlt ?_ ?_ ?_]
      · rw [hseg2, List.take_take]
        congr 1
        omega
      · intro a b hab hb
        rw [hlen2] at hb
        rw [hseg2, getD_take _ _ _ _ (by omega), getD_take _ _ _ _ (by omega)]
        exact hdist a b hab (by omega)
      · intro i hi hilt
        rw [hlen2] at hilt
        rw [hseg2, getD_take _ _ _ _ (by omega)]
        rw [remove_find_other hfs2 (hdist i n (by omega) (by omega))]
        exact hpres i hi (by omega)
      · rw [hseg2, getD_take _ _ _ _ (by omega)]
        rw [remove_find_other hfs2 (hdist j n (by omega) (by omega))]
        exact habs


theorem updateNth_getD {α} (l : List α) (n : Nat) (f : α → α) (d : α) (h : n < l.length) :
    (updateNth l n f).getD n d = f (l.getD n d) := by
  induction l generalizing n with
  | nil => simp at h
  | cons x xs ih =>
    cases n with
    | zero => simp [updateNth]
    | succ n => simp only [updateNth, List.getD_cons_succ]; exact ih n (by simpa using h)

theorem updateNth_getD_ne {α} (l : List α) (n m : Nat) (f : α → α) (d : α) (h : m ≠ n) :
    (updateNth l n f).getD m d = l.getD m d := by
  induction l generalizing n m with
  | nil => cases n <;> rfl
  | cons x xs ih =>
    cases n with
    | zero =>
      cases m with
      | zero => exact absurd rfl h
      | succ m => simp [updateNth]
    | succ n =>
      cases m with
      | zero => simp [updateNth]
      | succ m => simp only [updateNth, List.getD_cons_succ]; exact ih n m (by omega)

theorem find?_filter_self (l : List (String × List Byte)) (p : String) :
    (l.filter (fun e => e.1 != p)).find? (fun e => e.1 == p) = none := by
  induction l with
  | nil => rfl
  | cons e l ih =>
    by_cases he : e.1 = p
    · have h1 : (e.1 != p) = false := by simp [he]
      simp [List.filter, h1, ih]
    · have h1 : (e.1 != p) = true := by simp [he]
      have h2 : (e.1 == p) = false := by simp [he]
      simp [List.filter, List.find?, h1, h2, ih]

theorem remove_find_self {fs fs2 : FS} {p : String} (h : fs.remove p = some fs2) :
    fs2.find p = none := by
  unfold FS.remove at h
  cases hf : fs.find p with
  | none => rw [hf] at h; cases h
  | some c =>
    rw [hf] at h
    cases h
    simp only [FS.find]
    rw [find?_filter_self]
    rfl

theorem cleanLoop_absent : ∀ (f : Nat) (w : WALState) (fs : FS) (p : String),
    fs.find p = none → (cleanLoop w fs f).2.find p = none := by
  intro f
  induction f with
  | zero => intro w fs p h; exact h
  | succ n ih =>
    intro w fs p h
    by_cases hlm : w.lowMark ≤ n
    · cases hr : fs.remove ((w.segments.getD n dummySeg).path) with
      | none => simp only [cleanLoop, if_pos hlm, hr]; exact h
      | some fs2 =>
        simp only [cleanLoop, if_pos hlm, hr]
        apply ih
        by_cases hpe : p = (w.segments.getD n dummySeg).path
        · subst hpe; exact remove_find_self hr
        · rw [remove_find_other hr hpe]; exact h
    · simp only [cleanLoop, if_neg hlm]; exact h

theorem cleanLoop_removed : ∀ (f : Nat) (w : WALState) (fs : FS), w.segments.length = f →
    (∀ i j, i < j → j < w.segments.length →
      (w.segments.getD i dummySeg).path ≠ (w.segments.getD j dummySeg).path) →
    (∀ i, w.lowMark ≤ i → i < w.segments.length →
      fs.find ((w.segments.getD i dummySeg).path) ≠ none) →
    ∀ i, w.lowMark ≤ i → i < f →
      (cleanLoop w fs f).2.find ((w.segments.getD i dummySeg).path) = none := by
  intro f
  induction f with
  | zero => intro w fs _ _ _ i _ hi; omega
  | succ n ih =>
    intro w fs hlen hdist hpres i hlmi hif
    have hlm : w.lowMark ≤ n := by omega
    have hpn := hpres n hlm (by omega)
    obtain ⟨c, hc⟩ : ∃ c, fs.find ((w.segments.getD n dummySeg).path) = some c := by
      cases hf : fs.find ((w.segments.getD n dummySeg).path) with
      | none => exact absurd hf hpn
      | some c => exact ⟨c, rfl⟩
    obtain ⟨fs2, hfs2⟩ := remove_some hc
    have hseg2 : (removeIndex w n).segments = w.segments.take n := removeIndex_last w n hlen
    have hlen2 : (removeIndex w n).segments.length = n := by
      rw [hseg2, List.length_take]; omega
    simp only [cleanLoop, if_pos hlm, hfs2]
    by_cases hieq : i = n
    · subst hieq
      exact cleanLoop_absent i (removeIndex w i) fs2 _ (remove_find_self hfs2)
    · have hin : i < n := by omega
      have := ih (removeIndex w n) fs2 hlen2 ?_ ?_ i hlmi hin
      · rw [hseg2, getD_take _ _ _ _ hin] at this
        exact this
      · intro a b hab hb
        rw [hlen2] at hb
        rw [hseg2, getD_take _ _ _ _ (by omega), getD_take _ _ _ _ (by omega)]
        exact hdist a b hab (by omega)
      · intro q hq hqlt
        rw [hlen2] at hqlt
        rw [hseg2, getD_take _ _ _ _ (by omega)]
        rw [remove_find_other hfs2 (hdist q n (by omega) (by omega))]
        exact hpres q hq (by omega)

theorem set_data_eq (ts : List (Nat × T)) :
    (match ts with
      | [p] => ([] : List Byte) ++ Process p.1 p.2.Key p.2.Value p.2.Deleted
      | _ => (ts.map (fun p => Process p.1 p.2.Key p.2.Value p.2.Deleted)).flatten) =
    (ts.map (fun p => Process p.1 p.2.Key p.2.Value p.2.Deleted)).flatten := by
  match ts with
  | [] => rfl
  | [p] => simp
  | p :: q :: r => rfl

theorem Set_ok_spec {uf : Bool} {w : WALState} {fs : FS} {ts : List (Nat × T)}
    {w2 : WALState} {fs2 : FS} (h : Set uf w fs ts = Except.ok (w2, fs2)) :
    w2.segments = w.segments ++
      [{ path := tailName w.path (w.lastIndex + 1), index := w.lastIndex + 1,
         size := (0 : Int) +
           (((ts.map (fun p => Process p.1 p.2.Key p.2.Value p.2.Deleted)).flatten).length : Int),
         data := ([] : List Byte) ++
           (ts.map (fun p => Process p.1 p.2.Key p.2.Value p.2.Deleted)).flatten }] ∧
    w2.lastIndex = w.lastIndex + 1 ∧
    w2.tail = some (tailName w.path (w.lastIndex + 1)) ∧
    (∃ pre, fs2.find (tailName w.path (w.lastIndex + 1)) =
      some (pre ++ (ts.map (fun p => Process p.1 p.2.Key p.2.Value p.2.Deleted)).flatten)) := by
  unfold Set at h
  split at h
  · cases h
  · rename_i w1 fs1 pos hns
    obtain ⟨hsegs, hlast, htail, hpath, hpathlow, hcache, hpos⟩ := newSegment_ok hns
    rw [set_data_eq ts] at h
    unfold Update at h
    split at h
    · cases h
    · rename_i tp htp
      have htpe : tp = tailName w.path (w.lastIndex + 1) :=
        Option.some.inj (htp.symm.trans htail)
      split at h
      · cases h
      · injection h with h
        have hsegs2 : w2.segments = updateNth w1.segments pos
            (fun s => Segment.Append s
              ((ts.map (fun p => Process p.1 p.2.Key p.2.Value p.2.Deleted)).flatten)
              (((ts.map (fun p => Process p.1 p.2.Key p.2.Value p.2.Deleted)).flatten.length :
                Int))) := by
          have h2 := congrArg (fun r => (Prod.fst r).segments) h
          exact h2.symm
        have hlast2 : w2.lastIndex = w1.lastIndex := by
          have h2 := congrArg (fun r => (Prod.fst r).lastIndex) h
          exact h2.symm
        have htail2 : w2.tail = w1.tail := by
          have h2 := congrArg (fun r => (Prod.fst r).tail) h
          exact h2.symm
        have hfs2 : fs2 = fsAppend fs1 tp
            ((ts.map (fun p => Process p.1 p.2.Key p.2.Value p.2.Deleted)).flatten) := by
          have h2 := congrArg Prod.snd h
          exact h2.symm
        refine ⟨?_, ?_, ?_, ?_⟩
        · rw [hsegs2, hsegs, hpos, ← hpath]
          rw [updateNth_append_last]
          simp [Segment.Append, hpath]
        · rw [hlast2]; exact hlast
        · rw [htail2]; exact htail
        · refine ⟨(fs1.find tp).getD [], ?_⟩
          rw [hfs2, ← htpe]
          exact fsAppend_find fs1 tp _


theorem convertStep_short {data : List Byte} (h : data.length < 29) (i : Nat) :
    convertStep data i = none := by
  cases hs : convertStep data i with
  | none => rfl
  | some ei =>
    obtain ⟨e, i2⟩ := ei
    have := convertStep_bounds data i e i2 hs
    omega

/-- C2: for every finite sequence of records (each paired with the `uint64`
timestamp its encoding observes), decoding the concatenation of their
encodings yields exactly the same number of entries in order, and entry `i`
has `Key`, `Value` and `Deleted` equal to record `i`'s fields and `Crc` equal
to the CRC-32 of record `i`'s value.  Keys and values are byte strings of Go
length (`< 2 ^ 64`, value bytes `< 256`). -/
theorem C2_stream_round_trip (rs : List (Nat × T))
    (hk : ∀ p ∈ rs, p.2.Key.length < 2 ^ 64)
    (hv : ∀ p ∈ rs, p.2.Value.length < 2 ^ 64)
    (hb : ∀ p ∈ rs, ∀ b ∈ p.2.Value, b < 256) :
    convert ((rs.map (fun p => Process p.1 p.2.Key p.2.Value p.2.Deleted)).flatten) =
      some (rs.map (fun p =>
        (⟨CRC32 p.2.Value, p.1 % 2 ^ 64, p.2.Deleted, p.2.Key, p.2.Value⟩ : Entry))) := by
  rw [convert_join rs hk hv]
  congr 1
  apply List.map_congr_left
  intro p hp
  have hc : CRC32 p.2.Value % 2 ^ 32 = CRC32 p.2.Value :=
    Nat.mod_eq_of_lt (CRC32_lt _ (hb p hp))
  rw [hc]

/-- Witness for C2 at the concrete two-record batch `[("a","1",false),("b","2",true)]`. -/
theorem C2_stream_round_trip_witness :
    convert ((([((7 : Nat), (⟨[97], [49], false⟩ : T)),
        (8, ⟨[98], [50], true⟩)]).map
      (fun p => Process p.1 p.2.Key p.2.Value p.2.Deleted)).flatten) =
      some [⟨CRC32 [49], 7 % 2 ^ 64, false, [97], [49]⟩,
        ⟨CRC32 [50], 8 % 2 ^ 64, true, [98], [50]⟩] :=
  C2_stream_round_trip [(7, ⟨[97], [49], false⟩), (8, ⟨[98], [50], true⟩)]
    (by decide) (by decide) (by decide)

/-- C3 counterexample: the decoder does not fail on a CRC mismatch.  The
31-byte record image whose CRC field is `0` but whose value `"1"` has nonzero
CRC-32 decodes successfully (to an entry carrying the stored CRC `0`), where
the claim requires a `CorruptRecord` failure; and on a 1-byte stream the
decoder crashes with an out-of-range panic (modelled `none`), not a
`CorruptRecord` error. -/
theorem C3_counterexample :
    convert (rawRec 0 0 0 [97] [49]) = some [⟨0, 0, false, [97], [49]⟩] ∧
    CRC32 [49] ≠ 0 ∧
    convert [0] = none := by decide

/-- C3 amended: the decoder performs no validation.  When fewer than 29 bytes
remain at the start of a record it panics with an index-out-of-range error
(modelled `none`) instead of returning `CorruptRecord`; the same happens when
fewer bytes remain than the payload length implied by the header (shown at
the truncated record); and a CRC field that differs from the CRC-32 of the
value bytes is not detected: decoding succeeds and the entry carries the
stored CRC unchecked. -/
theorem C3_decoder_no_validation :
    (∀ data : List Byte, 0 < data.length → data.length < 29 → convert data = none) ∧
    (∀ (c ts tomb : Nat) (k v : List Byte), k.length < 2 ^ 64 → v.length < 2 ^ 64 →
      convert (rawRec c ts tomb k v) = some [⟨c % 2 ^ 32, ts % 2 ^ 64, tomb == 1, k, v⟩]) ∧
    convert ((rawRec 0 0 0 [97] [49]).take 30) = none := by
  refine ⟨?_, ?_, by decide⟩
  · intro data h0 h29
    unfold convert
    rw [if_neg (by omega)]
    cases hlen : data.length with
    | zero => omega
    | succ m =>
      exact convertLoopF_succ_none m data 0 (by omega) (convertStep_short (by omega) 0)
  · intro c ts tomb k v hk hv
    have h := convert_cons c ts tomb k v [] hk hv
    rw [List.append_nil] at h
    rw [h]
    simp [convert]

/-- Witness for C3's amended statement: the short-input clause at the 1-byte
stream `[0]` and the no-validation clause at the record with stored CRC 5. -/
theorem C3_decoder_no_validation_witness :
    convert [0] = none ∧
    convert (rawRec 5 0 0 [97] [49]) = some [⟨5 % 2 ^ 32, 0 % 2 ^ 64, (0 == 1), [97], [49]⟩] :=
  ⟨C3_decoder_no_validation.1 [0] (by decide) (by decide),
    C3_decoder_no_validation.2.1 5 0 0 [97] [49] (by decide) (by decide)⟩

/-- C4 counterexample: `Open` on an empty directory does not create
`00000000000000000000_END.wal` and does not leave `lastIndex == 0`:
`NewWAL` (model.go) initializes `lastIndex` to `0`, so the rollover inside
`Open` creates index `0 + 1 = 1`. -/
theorem C4_counterexample :
    (freshOpen.toOption.map (fun r => r.1.lastIndex)) = some 1 ∧
    (freshOpen.toOption.map (fun r => r.1.segments.map (fun s => s.index))) = some [1] ∧
    (freshOpen.toOption.map (fun r => r.2.find "d/00000000000000000000_END.wal")) =
      some none ∧
    (1 : Int) ≠ 0 := by decide

/-- C4 amended: for a WAL constructed fresh by `NewWAL` (which leaves
`segments` empty, `lastIndex = 0`, and does not touch the filesystem), `Open`
on an empty directory creates `00000000000000000001_END.wal` of size 0,
leaves `segments` with exactly one entry whose index is `1`, and sets
`lastIndex = 1`. -/
theorem C4_fresh_open_amended : freshOpen.toOption = some (w1c, fs1c) := by decide


/-- C5: `Update` is atomic with respect to the segment shadow.  If the
durable append through the tail writer fails (injected via `uf`), `Update`
returns the error and no state is produced (the caller keeps the unchanged
segment); on success the segment at `pos` has its shadow extended by exactly
the buffer, its size grown by the buffer's length, every other segment is
untouched, and the tail file grew by the same bytes. -/
theorem C5_update_atomic (uf : Bool) (data : List Byte) (pos : Nat) (w : WALState) (fs : FS)
    (tp : String) (htail : w.tail = some tp) (hpos : pos < w.segments.length) :
    (uf = true → Update uf data pos w fs = Except.error "update failed") ∧
    (∀ w2 fs2, Update uf data pos w fs = Except.ok (w2, fs2) →
      (w2.segments.getD pos dummySeg).data = (w.segments.getD pos dummySeg).data ++ data ∧
      (w2.segments.getD pos dummySeg).size =
        (w.segments.getD pos dummySeg).size + (data.length : Int) ∧
      (∀ q, q ≠ pos → w2.segments.getD q dummySeg = w.segments.getD q dummySeg) ∧
      w2.segments.length = w.segments.length ∧
      fs2.find tp = some (((fs.find tp).getD []) ++ data)) := by
  constructor
  · intro hu
    subst hu
    unfold Update
    rw [htail]
    rfl
  · intro w2 fs2 h
    unfold Update at h
    split at h
    · cases h
    · rename_i tp2 htp2
      have htpe : tp2 = tp := Option.some.inj (htp2.symm.trans htail)
      rw [htpe] at h
      split at h
      · cases h
      injection h with h
      have hsegs2 : w2.segments =
          updateNth w.segments pos (fun s => Segment.Append s data (data.length : Int)) := by
        have h2 := congrArg (fun r => (Prod.fst r).segments) h
        exact h2.symm
      have hfs2 : fs2 = fsAppend fs tp data := by
        have h2 := congrArg Prod.snd h
        exact h2.symm
      refine ⟨?_, ?_, ?_, ?_, ?_⟩
      · rw [hsegs2, updateNth_getD _ _ _ _ hpos]
        simp [Segment.Append]
      · rw [hsegs2, updateNth_getD _ _ _ _ hpos]
        simp [Segment.Append]
      · intro q hq
        rw [hsegs2, updateNth_getD_ne _ _ _ _ _ hq]
      · rw [hsegs2, updateNth_length]
      · rw [hfs2]
        exact fsAppend_find fs tp data

/-- Witness for C5 at `Update false [9] 0 w1c fs1c`. -/
theorem C5_update_atomic_witness :
    (w2v.segments.getD 0 dummySeg).data = (w1c.segments.getD 0 dummySeg).data ++ [9] ∧
    (w2v.segments.getD 0 dummySeg).size =
      (w1c.segments.getD 0 dummySeg).size + (([9] : List Byte).length : Int) ∧
    w2v.segments.length = w1c.segments.length ∧
    fs2v.find "d/00000000000000000001_END.wal" =
      some (((fs1c.find "d/00000000000000000001_END.wal").getD []) ++ [9]) := by
  have h := (C5_update_atomic false [9] 0 w1c fs1c "d/00000000000000000001_END.wal"
    (by decide) (by decide)).2 w2v fs2v rfl
  exact ⟨h.1, h.2.1, h.2.2.2.1, h.2.2.2.2⟩

/-- C8: on a retention tick in which every removal succeeds (all eligible
files exist, with pairwise distinct paths), the sweep walks `i` from
`len(segments)-1` down to `lowMark`, removing each file and dropping each
entry, so `segments` retains exactly its first `min(lowMark, previous
length)` entries in order, and every swept file is gone. -/
theorem C8_retention_sweep (w : WALState) (fs : FS)
    (hdist : (w.segments.map (fun s => s.path)).Nodup)
    (hpres : ∀ i, w.lowMark ≤ i → i < w.segments.length →
      fs.find ((w.segments.getD i dummySeg).path) ≠ none) :
    (cleanLog w fs).1.segments = w.segments.take (min w.lowMark w.segments.length) ∧
    (∀ i, w.lowMark ≤ i → i < w.segments.length →
      (cleanLog w fs).2.find ((w.segments.getD i dummySeg).path) = none) := by
  constructor
  · unfold cleanLog
    rw [cleanLoop_take w.segments.length w fs rfl (nodup_paths_getD hdist) hpres]
    rcases Nat.le_total w.lowMark w.segments.length with hc | hc
    · rw [Nat.min_eq_left hc]
    · rw [Nat.min_eq_right hc]
      rw [List.take_of_length_le hc, List.take_length]
  · intro i h1 h2
    unfold cleanLog
    exact cleanLoop_removed w.segments.length w fs rfl (nodup_paths_getD hdist) hpres i h1 h2

/-- Witness for C8 at three segments with `lowMark = 1` and all files
present: one segment survives, the others' files are removed. -/
theorem C8_retention_sweep_witness :
    (cleanLog wC8 fsC8).1.segments = wC8.segments.take (min wC8.lowMark wC8.segments.length) ∧
    (cleanLog wC8 fsC8).2.find ((wC8.segments.getD 2 dummySeg).path) = none := by
  have h := C8_retention_sweep wC8 fsC8 (by decide)
    (by
      intro i h1 h2
      have h1b : 1 ≤ i := by simpa [wC8, wC9] using h1
      have h2b : i < 3 := by simpa [wC8, wC9] using h2
      have : i = 1 ∨ i = 2 := by omega
      rcases this with h | h <;> subst h <;> decide)
  exact ⟨h.1, h.2 2 (by decide) (by decide)⟩

/-- C9 counterexample: with `lowMark = 0` every segment is eligible, yet when
the removal of the newest segment's file fails (the file is missing), the
sweep aborts: no entry is dropped and the files of the other eligible
segments remain, contradicting "a single stuck file does not prevent the
removal of the other eligible segments on that tick". -/
theorem C9_counterexample :
    (cleanLog wC9 fsC9).1.segments.length = 3 ∧
    (cleanLog wC9 fsC9).2.find "d/a.wal" = some [] ∧
    (cleanLog wC9 fsC9).2.find "d/b.wal" = some [] ∧
    wC9.lowMark = 0 := by decide

/-- C9 amended: when the removal of `segments[j].path` fails during a sweep
(and the removals above `j` succeed), the sweep logs the failure and returns,
aborting the rest of that tick: entries `j` and below are all retained, so a
single stuck file does prevent the removal of the remaining eligible
segments on that tick. -/
theorem C9_sweep_abort_amended (w : WALState) (fs : FS) (j : Nat)
    (hdist : (w.segments.map (fun s => s.path)).Nodup)
    (hlm : w.lowMark ≤ j) (hj : j < w.segments.length)
    (hpres : ∀ i, j < i → i < w.segments.length →
      fs.find ((w.segments.getD i dummySeg).path) ≠ none)
    (habs : fs.find ((w.segments.getD j dummySeg).path) = none) :
    (cleanLog w fs).1.segments = w.segments.take (j + 1) := by
  unfold cleanLog
  exact cleanLoop_until w.segments.length w fs j rfl hlm hj (nodup_paths_getD hdist) hpres habs

/-- Witness for C9's amended statement: the failure at the top position
`j = 2` retains all three segments. -/
theorem C9_sweep_abort_amended_witness :
    (cleanLog wC9 fsC9).1.segments = wC9.segments.take (2 + 1) :=
  C9_sweep_abort_amended wC9 fsC9 2 (by decide) (by decide) (by decide)
    (by
      intro i h1 h2
      have h2b : i < 3 := by simpa [wC9] using h2
      omega) (by decide)

/-- C10: every successful `Set`, whatever the batch, first rolls over:
exactly one segment is appended, `lastIndex` grows by exactly one, and the
batch's bytes land in the freshly created tail segment (the new last
segment), not the previous one. -/
theorem C10_set_rollover (uf : Bool) (w : WALState) (fs : FS) (ts : List (Nat × T))
    (w2 : WALState) (fs2 : FS) (h : Set uf w fs ts = Except.ok (w2, fs2)) :
    w2.segments.length = w.segments.length + 1 ∧
    w2.lastIndex = w.lastIndex + 1 ∧
    w2.segments.getLast? = some
      { path := tailName w.path (w.lastIndex + 1), index := w.lastIndex + 1,
        size := (0 : Int) +
          (((ts.map (fun p => Process p.1 p.2.Key p.2.Value p.2.Deleted)).flatten).length : Int),
        data := ([] : List Byte) ++
          (ts.map (fun p => Process p.1 p.2.Key p.2.Value p.2.Deleted)).flatten } := by
  obtain ⟨hsegs, hlast, htail, hpre⟩ := Set_ok_spec h
  refine ⟨?_, hlast, ?_⟩
  · rw [hsegs]
    simp
  · rw [hsegs]
    exact List.getLast?_concat _

/-- Witness for C10 at `Set false w1c fs1c batchC1`. -/
theorem C10_set_rollover_witness :
    w2c.segments.length = w1c.segments.length + 1 ∧
    w2c.lastIndex = w1c.lastIndex + 1 ∧
    w2c.segments.getLast? = some
      { path := tailName w1c.path (w1c.lastIndex + 1), index := w1c.lastIndex + 1,
        size := (0 : Int) +
          (((batchC1.map (fun p => Process p.1 p.2.Key p.2.Value p.2.Deleted)).flatten).length :
            Int),
        data := ([] : List Byte) ++
          (batchC1.map (fun p => Process p.1 p.2.Key p.2.Value p.2.Deleted)).flatten } :=
  C10_set_rollover false w1c fs1c batchC1 w2c fs2c rfl


/-- C1: `Set` encodes each record of the batch, concatenates the encodings
into one buffer, and appends that buffer to the (freshly rolled-over) tail
segment through a single `Update`: on success the new tail's shadow holds
exactly the concatenation and the tail file grew by exactly it.  In
particular, starting from a freshly opened empty WAL, `Set` of the
two-record batch with one-byte keys and values leaves the tail segment's
file with exactly `2 * (29 + 1 + 1) = 62` bytes, and decoding it returns
both entries in order. -/
theorem C1_batch_single_update :
    (∀ (uf : Bool) (w : WALState) (fs : FS) (ts : List (Nat × T)) (w2 : WALState) (fs2 : FS),
      Set uf w fs ts = Except.ok (w2, fs2) →
      w2.tail = some (tailName w.path (w.lastIndex + 1)) ∧
      w2.segments.getLast? = some
        { path := tailName w.path (w.lastIndex + 1), index := w.lastIndex + 1,
          size := (0 : Int) +
            (((ts.map (fun p => Process p.1 p.2.Key p.2.Value p.2.Deleted)).flatten).length :
              Int),
          data := ([] : List Byte) ++
            (ts.map (fun p => Process p.1 p.2.Key p.2.Value p.2.Deleted)).flatten } ∧
      (∃ pre, fs2.find (tailName w.path (w.lastIndex + 1)) =
        some (pre ++ (ts.map (fun p => Process p.1 p.2.Key p.2.Value p.2.Deleted)).flatten))) ∧
    c1Run.map (fun r => ((r.2.find "d/00000000000000000002_END.wal").getD []).length) =
      some 62 ∧
    c1Run.map (fun r => convert ((r.2.find "d/00000000000000000002_END.wal").getD [])) =
      some (some [⟨CRC32 [49], 7, false, [97], [49]⟩, ⟨CRC32 [50], 8, true, [98], [50]⟩]) := by
  refine ⟨?_, by decide, by decide⟩
  intro uf w fs ts w2 fs2 h
  obtain ⟨hsegs, hlast, htail, hpre⟩ := Set_ok_spec h
  refine ⟨htail, ?_, hpre⟩
  rw [hsegs]
  exact List.getLast?_concat _

/-- Witness for C1's universally quantified part at `Set false w1c fs1c batchC1`. -/
theorem C1_batch_single_update_witness :
    w2c.tail = some (tailName w1c.path (w1c.lastIndex + 1)) ∧
    w2c.segments.getLast? = some
      { path := tailName w1c.path (w1c.lastIndex + 1), index := w1c.lastIndex + 1,
        size := (0 : Int) +
          (((batchC1.map (fun p => Process p.1 p.2.Key p.2.Value p.2.Deleted)).flatten).length :
            Int),
        data := ([] : List Byte) ++
          (batchC1.map (fun p => Process p.1 p.2.Key p.2.Value p.2.Deleted)).flatten } ∧
    (∃ pre, fs2c.find (tailName w1c.path (w1c.lastIndex + 1)) =
      some (pre ++ (batchC1.map (fun p => Process p.1 p.2.Key p.2.Value p.2.Deleted)).flatten)) :=
  C1_batch_single_update.1 false w1c fs1c batchC1 w2c fs2c rfl

/-- C6 counterexample: on a fresh WAL (`NewWAL`, empty `segments`,
`lastIndex = 0`), `Read 0` takes the `index >= lastIndex` branch and
`getLastSegment` falls through to `newSegment`: a segment is created and the
WAL state is modified, contradicting "without modifying the WAL state (in
particular it does not create any segment)". -/
theorem C6_counterexample :
    (Read (NewWAL "d" 2) fsEmptyD 0).toOption.map (fun r => r.1.segments.length) = some 1 ∧
    (NewWAL "d" 2).segments.length = 0 ∧
    (NewWAL "d" 2).lastIndex ≤ 0 := by decide

/-- C6 amended: for every index `>= lastIndex`, provided a segment with
`index == lastIndex` exists in the (sorted) `segments` and its file exists,
`Read` returns that tail segment's file bytes without error and without
modifying the WAL state or the directory; when no such segment exists,
`Read` instead performs a rollover that creates a fresh segment. -/
theorem C6_read_tail_amended (w : WALState) (fs : FS) (index : Int) (p : Nat)
    (content : List Byte) (hidxge : w.lastIndex ≤ index)
    (hsorted : w.segments.Pairwise (fun s t => s.index < t.index))
    (hp : p < w.segments.length)
    (hip : (w.segments.getD p dummySeg).index = w.lastIndex)
    (hfile : fs.find ((w.segments.getD p dummySeg).path) = some content) :
    Read w fs index = Except.ok (w, fs, content) := by
  have hgs : getSegmentData fs (w.segments.getD p dummySeg) = (fs, content) := by
    unfold getSegmentData
    exact fsOpen_existing hfile
  unfold Read
  rw [if_pos hidxge, getLastSegment_found fs hp hsorted hip]
  show Except.ok (w, (getSegmentData fs (w.segments.getD p dummySeg)).1,
    (getSegmentData fs (w.segments.getD p dummySeg)).2) = Except.ok (w, fs, content)
  rw [hgs]

/-- Witness for C6's amended statement: `Read 5` on the freshly opened WAL
(tail index 1) returns the empty tail bytes and changes nothing. -/
theorem C6_read_tail_amended_witness :
    Read w1c fs1c 5 = Except.ok (w1c, fs1c, []) :=
  C6_read_tail_amended w1c fs1c 5 0 [] (by decide) (by decide) (by decide)
    (by decide) (by decide)

/-- C7 counterexample: `Open` performs no sort; it appends segments in the
lexical walk order.  On a directory holding the legally named files `10.wal`
and `5_END.wal`, the walk order is `10` before `5`, `lastIndex` becomes 5,
the tail lookup misses, and the rollover appends index 6: `segments` ends up
`[10, 5, 6]`, which is not strictly sorted. -/
theorem C7_counterexample :
    (Open (NewWAL "d" 2) fsBadC7).toOption.map
      (fun r => r.1.segments.map (fun s => s.index)) = some [10, 5, 6] ∧
    ¬ ([10, 5, 6] : List Int).Pairwise (· < ·) := by decide

/-- C7 amended: the monotone-indices invariant holds under the operations
with side conditions.  (1) A rollover from a strictly sorted `segments`
whose indices are all `<= lastIndex` preserves strict sortedness (the new
index is `lastIndex + 1`).  (2) A retention sweep always leaves a prefix of
`segments`, preserving strict sortedness.  (3) `Open` itself performs no
sort: its result is strictly sorted provided the discovery walk already
yields a strictly sorted `segments` containing the tail index (which the
canonical zero-padded naming guarantees, the walk being lexical). -/
theorem C7_sorted_amended :
    (∀ (w : WALState) (fs : FS) (w1 : WALState) (fs1 : FS) (pos : Nat),
      newSegment w fs = Except.ok (w1, fs1, pos) →
      w.segments.Pairwise (fun s t => s.index < t.index) →
      (∀ s ∈ w.segments, s.index ≤ w.lastIndex) →
      w1.segments.Pairwise (fun s t => s.index < t.index)) ∧
    (∀ (w : WALState) (fs : FS),
      w.segments.Pairwise (fun s t => s.index < t.index) →
      (cleanLog w fs).1.segments.Pairwise (fun s t => s.index < t.index)) ∧
    (∀ (w : WALState) (fs : FS) (w1 : WALState) (p : Nat),
      openWalk w fs = Except.ok w1 →
      w1.segments.Pairwise (fun s t => s.index < t.index) →
      p < w1.segments.length →
      (w1.segments.getD p dummySeg).index = w1.lastIndex →
      ∀ (w2 : WALState) (fs2 : FS), Open w fs = Except.ok (w2, fs2) →
        w2.segments.Pairwise (fun s t => s.index < t.index)) := by
  refine ⟨?_, ?_, ?_⟩
  · intro w fs w1 fs1 pos h hsorted hle
    obtain ⟨hsegs, _, _, _, _, _, _⟩ := newSegment_ok h
    rw [hsegs, List.pairwise_append]
    refine ⟨hsorted, by simp, ?_⟩
    intro a ha b hb
    simp only [List.mem_singleton] at hb
    subst hb
    have := hle a ha
    simp only []
    omega
  · intro w fs hsorted
    unfold cleanLog
    obtain ⟨k, hk⟩ := cleanLoop_prefix w.segments.length w fs rfl
    rw [hk]
    exact List.Pairwise.sublist (List.take_sublist k w.segments) hsorted
  · intro w fs w1 p hwalk hsorted hp hidx w2 fs2 hopen
    unfold Open at hopen
    split at hopen
    · cases hopen
    · rename_i w1b hw1b
      have hw1e : w1 = w1b := by
        injection (hwalk.symm.trans hw1b)
      subst hw1e
      unfold setupLastSegment at hopen
      split at hopen
      · rename_i e hge
        rw [getLastSegment_found fs hp hsorted hidx] at hge
        cases hge
      · rename_i w1f fsf pos hge
        rw [getLastSegment_found fs hp hsorted hidx] at hge
        injection hge with hge
        have hw1f : w1f = w1 := (congrArg Prod.fst hge).symm
        have hfsf : fsf = fs := by
          have h2 := congrArg (fun r => Prod.fst (Prod.snd r)) hge
          exact h2.symm
        have hpos : pos = p := by
          have h2 := congrArg (fun r => Prod.snd (Prod.snd r)) hge
          exact h2.symm
        subst hw1f
        subst hfsf
        subst hpos
        injection hopen with hopen
        have hsegs2 : w2.segments = updateNth w1f.segments pos
            (fun s => { s with data := s.data ++ (fsOpen fsf
              ((w1f.segments.getD pos dummySeg).path)).2 }) := by
          have h2 := congrArg (fun r => (Prod.fst r).segments) hopen
          exact h2.symm
        rw [hsegs2]
        have hmap : (updateNth w1f.segments pos
            (fun s => { s with data := s.data ++ (fsOpen fsf
              ((w1f.segments.getD pos dummySeg).path)).2 })).map (fun s => s.index) =
            w1f.segments.map (fun s => s.index) :=
          updateNth_map _ _ _ _ (fun x => rfl)
        have hmpw : List.Pairwise (· < ·) (w1f.segments.map (fun s => s.index)) :=
          List.pairwise_map.mpr hsorted
        rw [← hmap] at hmpw
        exact List.pairwise_map.mp hmpw

/-- Witness for C7's three amended clauses: rollover from the fresh-open
state, a sweep over three sorted segments, and `Open` over the canonically
named directory. -/
theorem C7_sorted_amended_witness :
    wNs.segments.Pairwise (fun s t => s.index < t.index) ∧
    (cleanLog wC8 fsC8).1.segments.Pairwise (fun s t => s.index < t.index) ∧
    wOpenC7.segments.Pairwise (fun s t => s.index < t.index) :=
  ⟨C7_sorted_amended.1 w1c fs1c wNs fsNs 1 rfl (by decide) (by decide),
    C7_sorted_amended.2.1 wC8 fsC8 (by decide),
    C7_sorted_amended.2.2 (NewWAL "d" 2) fsGoodC7 wWalkC7 1 rfl (by decide) (by decide)
      (by decide) wOpenC7 fsGoodC7 rfl⟩


end Wal
